import Mathlib

/-!
Verification of the 2D linear-transformation module (geomt/linear2d.pyx).

The module represents a non-singular 2D linear map by canonical parameters
(sx, sy, r, h) with matrix [[sx*cos r, -sy*sin(r+h)], [sx*sin r, sy*cos(r+h)]],
plus a lazily computed polar cache (lx, qx, ly, qy).  We embed the code over
the real numbers: C doubles become reals, `libm`'s `atan2`/`hypot` become
their exact mathematical counterparts, raising `ValueError` becomes returning
`Except.error`, and in-place mutation of the Cython object becomes a state
pair (new object, optional raised message).
-/

open Real

noncomputable section
open scoped Classical

/-- Embeds `feq(a, b, eps=1e-06)` from the source: checks if two scalars are
nearly equal, `fabs(a-b) < eps`. -/
def feq (a b : ℝ) (eps : ℝ := 1e-6) : Prop := |a - b| < eps

/-- Embeds the first while loop of `radian_range`:
`while rad >= M_PI: rad -= M_PI`. -/
def radian_range_sub (rad : ℝ) : ℝ :=
  if h : π ≤ rad then radian_range_sub (rad - π) else rad
termination_by (⌈rad / π⌉).toNat
decreasing_by
  have hπ : (0:ℝ) < π := Real.pi_pos
  have h1 : (rad - π) / π = rad / π - 1 := by field_simp
  have h2 : (0:ℤ) < ⌈rad / π⌉ := by
    rw [Int.ceil_pos]
    exact div_pos (lt_of_lt_of_le hπ h) hπ
  rw [h1, Int.ceil_sub_one]
  omega

/-- Embeds the second while loop of `radian_range`:
`while rad < -M_PI: rad += M_PI`. -/
def radian_range_add (rad : ℝ) : ℝ :=
  if h : rad < -π then radian_range_add (rad + π) else rad
termination_by (⌈(-rad) / π⌉).toNat
decreasing_by
  have hπ : (0:ℝ) < π := Real.pi_pos
  have h1 : (-(rad + π)) / π = (-rad) / π - 1 := by field_simp; ring
  have h2 : (0:ℤ) < ⌈(-rad) / π⌉ := by
    rw [Int.ceil_pos]
    have : π < -rad := by linarith
    exact div_pos (lt_trans hπ this) hπ
  rw [h1, Int.ceil_sub_one]
  omega

/-- Embeds `radian_range(rad)` from the source: brings a radian value into
`[-pi, +pi)` by the two sequential while loops. -/
def radian_range (rad : ℝ) : ℝ := radian_range_add (radian_range_sub rad)

theorem radian_range_sub_of_lt {rad : ℝ} (h : rad < π) : radian_range_sub rad = rad := by
  rw [radian_range_sub]
  exact dif_neg (not_le.mpr h)

theorem radian_range_sub_of_ge {rad : ℝ} (h : π ≤ rad) :
    radian_range_sub rad = radian_range_sub (rad - π) := by
  conv_lhs => rw [radian_range_sub]
  exact dif_pos h

theorem radian_range_add_of_ge {rad : ℝ} (h : -π ≤ rad) : radian_range_add rad = rad := by
  rw [radian_range_add]
  exact dif_neg (not_lt.mpr h)

theorem radian_range_add_of_lt {rad : ℝ} (h : rad < -π) :
    radian_range_add rad = radian_range_add (rad + π) := by
  conv_lhs => rw [radian_range_add]
  exact dif_pos h

theorem radian_range_sub_lt (rad : ℝ) : radian_range_sub rad < π := by
  induction rad using radian_range_sub.induct with
  | case1 rad h ih =>
      rw [radian_range_sub_of_ge h]
      exact ih
  | case2 rad h =>
      rw [radian_range_sub_of_lt (not_le.mp h)]
      exact not_le.mp h

theorem radian_range_sub_cases (rad : ℝ) :
    radian_range_sub rad = rad ∨ 0 ≤ radian_range_sub rad := by
  induction rad using radian_range_sub.induct with
  | case1 rad h ih =>
      rw [radian_range_sub_of_ge h]
      rcases ih with h1 | h1
      · right
        rw [h1]
        linarith [Real.pi_pos]
      · right; exact h1
  | case2 rad h =>
      left
      exact radian_range_sub_of_lt (not_le.mp h)

theorem radian_range_sub_exists_int (rad : ℝ) :
    ∃ k : ℤ, radian_range_sub rad = rad - k * π := by
  induction rad using radian_range_sub.induct with
  | case1 rad h ih =>
      obtain ⟨k, hk⟩ := ih
      refine ⟨k + 1, ?_⟩
      rw [radian_range_sub_of_ge h, hk]
      push_cast
      ring
  | case2 rad h =>
      exact ⟨0, by rw [radian_range_sub_of_lt (not_le.mp h)]; push_cast; ring⟩

theorem radian_range_add_ge (rad : ℝ) : -π ≤ radian_range_add rad := by
  induction rad using radian_range_add.induct with
  | case1 rad h ih =>
      rw [radian_range_add_of_lt h]
      exact ih
  | case2 rad h =>
      rw [radian_range_add_of_ge (not_lt.mp h)]
      exact not_lt.mp h

theorem radian_range_add_lt {rad : ℝ} (h : rad < π) : radian_range_add rad < π := by
  induction rad using radian_range_add.induct with
  | case1 rad h' ih =>
      rw [radian_range_add_of_lt h']
      have : rad + π < π := by linarith [Real.pi_pos]
      exact ih this
  | case2 rad h' =>
      rw [radian_range_add_of_ge (not_lt.mp h')]
      exact h

theorem radian_range_add_exists_int (rad : ℝ) :
    ∃ k : ℤ, radian_range_add rad = rad - k * π := by
  induction rad using radian_range_add.induct with
  | case1 rad h ih =>
      obtain ⟨k, hk⟩ := ih
      refine ⟨k - 1, ?_⟩
      rw [radian_range_add_of_lt h, hk]
      push_cast
      ring
  | case2 rad h =>
      exact ⟨0, by rw [radian_range_add_of_ge (not_lt.mp h)]; push_cast; ring⟩

theorem radian_range_mem (rad : ℝ) : radian_range rad ∈ Set.Ico (-π) π :=
  ⟨radian_range_add_ge _, radian_range_add_lt (radian_range_sub_lt rad)⟩

theorem radian_range_eq_self {rad : ℝ} (h1 : -π ≤ rad) (h2 : rad < π) :
    radian_range rad = rad := by
  rw [radian_range, radian_range_sub_of_lt h2, radian_range_add_of_ge h1]

theorem radian_range_exists_int (rad : ℝ) :
    ∃ k : ℤ, radian_range rad = rad - k * π := by
  obtain ⟨k1, hk1⟩ := radian_range_sub_exists_int rad
  obtain ⟨k2, hk2⟩ := radian_range_add_exists_int (radian_range_sub rad)
  refine ⟨k1 + k2, ?_⟩
  rw [radian_range, hk2, hk1]
  push_cast
  ring

theorem radian_range_idem (rad : ℝ) : radian_range (radian_range rad) = radian_range rad :=
  radian_range_eq_self (radian_range_mem rad).1 (radian_range_mem rad).2

theorem radian_range_zero : radian_range 0 = 0 :=
  radian_range_eq_self (by linarith [Real.pi_pos]) Real.pi_pos

theorem radian_range_pi : radian_range π = 0 := by
  rw [radian_range, radian_range_sub_of_ge le_rfl, sub_self,
    radian_range_sub_of_lt Real.pi_pos]
  exact radian_range_add_of_ge (by linarith [Real.pi_pos])

/-- Shifting the argument by an integer multiple of pi multiplies both cos and
sin by a common sign. -/
theorem cos_sin_sub_int_pi (x : ℝ) (k : ℤ) :
    ∃ s : ℝ, (s = 1 ∨ s = -1) ∧ Real.cos (x - k * π) = s * Real.cos x ∧
      Real.sin (x - k * π) = s * Real.sin x := by
  rcases Int.even_or_odd' k with ⟨m, rfl | rfl⟩
  · refine ⟨1, Or.inl rfl, ?_, ?_⟩
    · have : x - ((2 * m : ℤ) : ℝ) * π = x + (-m : ℤ) * (2 * π) := by push_cast; ring
      rw [this, Real.cos_add_int_mul_two_pi, one_mul]
    · have : x - ((2 * m : ℤ) : ℝ) * π = x + (-m : ℤ) * (2 * π) := by push_cast; ring
      rw [this, Real.sin_add_int_mul_two_pi, one_mul]
  · refine ⟨-1, Or.inr rfl, ?_, ?_⟩
    · have : x - ((2 * m + 1 : ℤ) : ℝ) * π = (x - π) + (-m : ℤ) * (2 * π) := by push_cast; ring
      rw [this, Real.cos_add_int_mul_two_pi, Real.cos_sub_pi]
      ring
    · have : x - ((2 * m + 1 : ℤ) : ℝ) * π = (x - π) + (-m : ℤ) * (2 * π) := by push_cast; ring
      rw [this, Real.sin_add_int_mul_two_pi, Real.sin_sub_pi]
      ring

theorem cos_sin_radian_range (x : ℝ) :
    ∃ s : ℝ, (s = 1 ∨ s = -1) ∧ Real.cos (radian_range x) = s * Real.cos x ∧
      Real.sin (radian_range x) = s * Real.sin x := by
  obtain ⟨k, hk⟩ := radian_range_exists_int x
  rw [hk]
  exact cos_sin_sub_int_pi x k

theorem abs_cos_radian_range (x : ℝ) : |Real.cos (radian_range x)| = |Real.cos x| := by
  obtain ⟨s, hs, hc, _⟩ := cos_sin_radian_range x
  rw [hc, abs_mul]
  rcases hs with rfl | rfl <;> simp

/-- Embeds libm `hypot(x, y)`: the Euclidean norm `sqrt(x*x + y*y)`. -/
def hypot (x y : ℝ) : ℝ := Real.sqrt (x * x + y * y)

/-- Embeds libm `atan2(y, x)`: the angle of the point `(x, y)`, in `(-pi, pi]`,
realized as the complex argument of `x + y*i`. -/
def atan2 (y x : ℝ) : ℝ := Complex.arg ⟨x, y⟩

theorem hypot_eq_abs_complex (x y : ℝ) : hypot x y = Complex.abs ⟨x, y⟩ := by
  rw [Complex.abs_apply, Complex.normSq_mk, hypot]

theorem hypot_nonneg (x y : ℝ) : 0 ≤ hypot x y := Real.sqrt_nonneg _

theorem hypot_mul_cos (x y : ℝ) : hypot x y * Real.cos (atan2 y x) = x := by
  by_cases h : (⟨x, y⟩ : ℂ) = 0
  · have hx : x = 0 := by
      have := congrArg Complex.re h
      simpa using this
    have hy : y = 0 := by
      have := congrArg Complex.im h
      simpa using this
    subst hx; subst hy
    simp [hypot]
  · rw [hypot_eq_abs_complex, atan2, Complex.cos_arg h]
    have habs : Complex.abs ⟨x, y⟩ ≠ 0 := by
      simpa using (Complex.abs.ne_zero h)
    field_simp

theorem hypot_mul_sin (x y : ℝ) : hypot x y * Real.sin (atan2 y x) = y := by
  by_cases h : (⟨x, y⟩ : ℂ) = 0
  · have hx : x = 0 := by
      have := congrArg Complex.re h
      simpa using this
    have hy : y = 0 := by
      have := congrArg Complex.im h
      simpa using this
    subst hx; subst hy
    simp [hypot]
  · rw [hypot_eq_abs_complex, atan2, Complex.sin_arg]
    have habs : Complex.abs ⟨x, y⟩ ≠ 0 := by
      simpa using (Complex.abs.ne_zero h)
    field_simp

theorem neg_pi_lt_atan2 (y x : ℝ) : -π < atan2 y x := Complex.neg_pi_lt_arg _

theorem atan2_le_pi (y x : ℝ) : atan2 y x ≤ π := Complex.arg_le_pi _

theorem mk_eq_ofReal (x : ℝ) : (⟨x, 0⟩ : ℂ) = (x : ℂ) := by
  apply Complex.ext <;> simp

theorem atan2_zero_of_pos {x : ℝ} (hx : 0 < x) : atan2 0 x = 0 := by
  rw [atan2, mk_eq_ofReal]
  exact Complex.arg_ofReal_of_nonneg hx.le

theorem atan2_zero_of_neg {x : ℝ} (hx : x < 0) : atan2 0 x = π := by
  rw [atan2, mk_eq_ofReal]
  exact Complex.arg_ofReal_of_neg hx

/-- Embeds the Cython `cdef class lin2`: the four canonical parameters
`m_sx, m_sy, m_r, m_h`, the cache-dirty flag `m_dirty`, and the cached polar
reparametrization `m_lx, m_qx, m_ly, m_qy` of the matrix rows. -/
structure lin2 where
  m_sx : ℝ
  m_sy : ℝ
  m_r : ℝ
  m_h : ℝ
  m_dirty : Bool
  m_lx : ℝ
  m_qx : ℝ
  m_ly : ℝ
  m_qy : ℝ

/-- Freshly allocated `lin2` object before `__init__` runs: Cython
zero-initializes the C-level fields of a `cdef class`. -/
def lin2.base : lin2 := ⟨0, 0, 0, 0, false, 0, 0, 0, 0⟩

/-- Embeds `lin2.cleanse`: when the dirty flag is set, recompute the cached
quantities `lx = hypot(c0, s0)`, `qx = atan2(s0, c0)`, `ly = hypot(c1, s1)`,
`qy = atan2(s1, c1)` from `c0 = sx*cos(r)`, `s0 = sy*sin(r+h)`,
`c1 = sy*cos(r+h)`, `s1 = sx*sin(r)`, and clear the flag. -/
def lin2.cleanse (a : lin2) : lin2 :=
  if a.m_dirty then
    { a with
      m_lx := hypot (a.m_sx * Real.cos a.m_r) (a.m_sy * Real.sin (a.m_r + a.m_h))
      m_qx := atan2 (a.m_sy * Real.sin (a.m_r + a.m_h)) (a.m_sx * Real.cos a.m_r)
      m_ly := hypot (a.m_sy * Real.cos (a.m_r + a.m_h)) (a.m_sx * Real.sin a.m_r)
      m_qy := atan2 (a.m_sx * Real.sin a.m_r) (a.m_sy * Real.cos (a.m_r + a.m_h))
      m_dirty := false }
  else a

/-- Embeds the body of the `scale` property setter, keeping the statement
order of the source: the three validation checks raise (second component)
before any field is assigned; on success the fields `m_sx`, `m_sy` are set
and the dirty flag is raised.  The first component is the state of the object
when the call returns or raises. -/
def lin2.set_scale_state (a : lin2) (scale : List ℝ) : lin2 × Option String :=
  if scale.length ≠ 2 then (a, some ("Scale is not a pair."))
  else if ¬ (scale[0]! > 0) then (a, some ("The first scale component is not positive."))
  else if ¬ (scale[1]! > 0) then (a, some ("The second scale component is not positive."))
  else ({ a with m_sx := scale[0]!, m_sy := scale[1]!, m_dirty := true }, none)

/-- Except-valued view of the `scale` setter: `error` when it raises. -/
def lin2.set_scale (a : lin2) (scale : List ℝ) : Except String lin2 :=
  match a.set_scale_state scale with
  | (_, some e) => Except.error e
  | (b, none) => Except.ok b

/-- Embeds the `angle` property setter: canonicalize through `radian_range`
and mark the cache dirty.  It never raises. -/
def lin2.set_angle (a : lin2) (angle : ℝ) : lin2 :=
  { a with m_r := radian_range angle, m_dirty := true }

/-- Embeds the body of the `shear` property setter, keeping the statement
order of the source: `h = radian_range(shear)` is computed first (written
inline below), the two singularity checks (`feq(h, M_PI_2)`,
`feq(h, -M_PI_2)`) raise before any field is assigned, and on success `m_h`
is set and the dirty flag raised. -/
def lin2.set_shear_state (a : lin2) (shear : ℝ) : lin2 × Option String :=
  if feq (radian_range shear) (π / 2) then
    (a, some ("Singular case detected. Shearing of right angle is not accepted."))
  else if feq (radian_range shear) (-(π / 2)) then
    (a, some ("Singular case detected. Shearing of negative right angle is not accepted."))
  else ({ a with m_h := radian_range shear, m_dirty := true }, none)

/-- Except-valued view of the `shear` setter: `error` when it raises. -/
def lin2.set_shear (a : lin2) (shear : ℝ) : Except String lin2 :=
  match a.set_shear_state shear with
  | (_, some e) => Except.error e
  | (b, none) => Except.ok b

/-- Embeds `lin2.__init__(self, scale=np.ones(2), angle=0, shear=0)`: starting
from the zero-initialized object, run the three property setters in source
order; the first one that raises aborts construction. -/
def mk_lin2 (scale : List ℝ := [1, 1]) (angle : ℝ := 0) (shear : ℝ := 0) :
    Except String lin2 :=
  (lin2.base.set_scale scale).bind fun a1 => (a1.set_angle angle).set_shear shear

/-- Embeds the `matrix` property:
`[[sx*cos(r), -sy*sin(r+h)], [sx*sin(r), sy*cos(r+h)]]`. -/
def lin2.matrix (a : lin2) : Matrix (Fin 2) (Fin 2) ℝ :=
  !![a.m_sx * Real.cos a.m_r, -(a.m_sy * Real.sin (a.m_r + a.m_h));
     a.m_sx * Real.sin a.m_r,  a.m_sy * Real.cos (a.m_r + a.m_h)]

/-- Embeds the static method `lin2.from_matrix(mat)`:
`sx = hypot(a0, a2)`, `sy = hypot(a1, a3)`, `r = radian_range(atan2(a2, a0))`,
`h = radian_range(atan2(a1, a3) - r)`, then the validating constructor. -/
def lin2.from_matrix (mat : Matrix (Fin 2) (Fin 2) ℝ) : Except String lin2 :=
  mk_lin2 [hypot (mat 0 0) (mat 1 0), hypot (mat 0 1) (mat 1 1)]
    (radian_range (atan2 (mat 1 0) (mat 0 0)))
    (radian_range (atan2 (mat 0 1) (mat 1 1) - radian_range (atan2 (mat 1 0) (mat 0 0))))

/-- Embeds `lin2.__cmul__(self, other)` (the `*` operator): cleanse the left
operand, form the product matrix from the cached `(lx, qx, ly, qy)` of the
left operand and the raw parameters of the right operand, and re-canonicalize
through `from_matrix`. -/
def lin2.cmul (a other : lin2) : Except String lin2 :=
  lin2.from_matrix
    !![a.cleanse.m_lx * other.m_sx * Real.cos (a.cleanse.m_qx + other.m_r),
       -(a.cleanse.m_lx * other.m_sy * Real.sin (a.cleanse.m_qx + other.m_r + other.m_h));
       a.cleanse.m_ly * other.m_sx * Real.sin (a.cleanse.m_qy + other.m_r),
       a.cleanse.m_ly * other.m_sy * Real.cos (a.cleanse.m_qy + other.m_r + other.m_h)]

/-- Embeds `lin2.__invert__(self)` (the `~` operator): cleanse, then the
closed-form case split on the sign of `cos(h)`; the result goes through the
validating constructor. -/
def lin2.invert (a : lin2) : Except String lin2 :=
  if -(π / 2) < a.cleanse.m_h ∧ a.cleanse.m_h < π / 2 then
    mk_lin2 [(1 / Real.cos (a.cleanse.m_qx - a.cleanse.m_qy)) / a.cleanse.m_lx,
             (1 / Real.cos (a.cleanse.m_qx - a.cleanse.m_qy)) / a.cleanse.m_ly]
      (radian_range (-a.cleanse.m_qy)) (radian_range (π + a.cleanse.m_qy - a.cleanse.m_qx))
  else
    mk_lin2 [(-(1 / Real.cos (a.cleanse.m_qx - a.cleanse.m_qy))) / a.cleanse.m_lx,
             (-(1 / Real.cos (a.cleanse.m_qx - a.cleanse.m_qy))) / a.cleanse.m_ly]
      (radian_range (π - a.cleanse.m_qy)) (radian_range (a.cleanse.m_qy - a.cleanse.m_qx))

/-- Embeds `lin2.__lshift__(self, x)` (the `<<` operator, the Lie action).
The source first checks the operand shape, then evaluates
`np.dot(self.to_matrix(), x)` — but the class defines no method `to_matrix`
(the accessor is the property `matrix`), so for a well-shaped operand that
line raises `AttributeError`; we model that runtime error as the second
branch. -/
def lin2.lshift (a : lin2) (x : List ℝ) : Except String (List ℝ) :=
  if x.length ≠ 2 then Except.error ("Input shape is not (2,).")
  else Except.error ("AttributeError: lin2 object has no attribute to_matrix")

/-- Embeds `lin2.__truediv__` (`a / b = a * (~b)`). -/
def lin2.truediv (a b : lin2) : Except String lin2 :=
  (b.invert).bind fun ib => a.cmul ib

/-- Embeds `lin2.__mod__` (`a % b = (~a) * b`). -/
def lin2.mod (a b : lin2) : Except String lin2 :=
  (a.invert).bind fun ia => ia.cmul b

/-- Embeds `lin2.conjugate` (`a.conjugate(b) = a * (b / a)`). -/
def lin2.conjugate (a b : lin2) : Except String lin2 :=
  (b.truediv a).bind fun q => a.cmul q

/-- Data-model invariant of the canonical parametrization: positive scales,
angles in the principal range, shear away (by the `feq` tolerance) from the
two singular values. -/
def lin2.valid (a : lin2) : Prop :=
  0 < a.m_sx ∧ 0 < a.m_sy ∧ a.m_r ∈ Set.Ico (-π) π ∧ a.m_h ∈ Set.Ico (-π) π ∧
    ¬ feq a.m_h (π / 2) ∧ ¬ feq a.m_h (-(π / 2))

/-- The cached quantities agree with the current canonical parameters. -/
def lin2.cacheVals (a : lin2) : Prop :=
  a.m_lx = hypot (a.m_sx * Real.cos a.m_r) (a.m_sy * Real.sin (a.m_r + a.m_h)) ∧
  a.m_qx = atan2 (a.m_sy * Real.sin (a.m_r + a.m_h)) (a.m_sx * Real.cos a.m_r) ∧
  a.m_ly = hypot (a.m_sy * Real.cos (a.m_r + a.m_h)) (a.m_sx * Real.sin a.m_r) ∧
  a.m_qy = atan2 (a.m_sx * Real.sin a.m_r) (a.m_sy * Real.cos (a.m_r + a.m_h))

/-- A reachable cache state: either dirty (about to be recomputed by
`cleanse`) or consistent with the parameters. -/
def lin2.cacheOK (a : lin2) : Prop := a.m_dirty = true ∨ a.cacheVals

theorem lin2.cleanse_params (a : lin2) :
    (a.cleanse).m_sx = a.m_sx ∧ (a.cleanse).m_sy = a.m_sy ∧
      (a.cleanse).m_r = a.m_r ∧ (a.cleanse).m_h = a.m_h := by
  unfold lin2.cleanse
  by_cases h : a.m_dirty <;> simp [h]

theorem lin2.cleanse_cacheVals {a : lin2} (h : a.cacheOK) : (a.cleanse).cacheVals := by
  rcases h with h | h
  · unfold lin2.cleanse
    simp [h, lin2.cacheVals]
  · unfold lin2.cleanse
    by_cases hd : a.m_dirty
    · simp [hd, lin2.cacheVals]
    · simpa [hd] using h

theorem lin2.set_scale_eq_error1 {a : lin2} {s : List ℝ} (h1 : s.length ≠ 2) :
    a.set_scale s = Except.error ("Scale is not a pair.") := by
  unfold lin2.set_scale lin2.set_scale_state
  rw [if_pos h1]

theorem lin2.set_scale_eq_error2 {a : lin2} {s : List ℝ} (h1 : s.length = 2)
    (h2 : ¬ (s[0]! > 0)) :
    a.set_scale s = Except.error ("The first scale component is not positive.") := by
  unfold lin2.set_scale lin2.set_scale_state
  rw [if_neg (not_ne_iff.mpr h1), if_pos h2]

theorem lin2.set_scale_eq_error3 {a : lin2} {s : List ℝ} (h1 : s.length = 2)
    (h2 : s[0]! > 0) (h3 : ¬ (s[1]! > 0)) :
    a.set_scale s = Except.error ("The second scale component is not positive.") := by
  unfold lin2.set_scale lin2.set_scale_state
  rw [if_neg (not_ne_iff.mpr h1), if_neg (not_not_intro h2), if_pos h3]

theorem lin2.set_scale_eq_ok {a : lin2} {s : List ℝ} (h1 : s.length = 2)
    (h2 : s[0]! > 0) (h3 : s[1]! > 0) :
    a.set_scale s =
      Except.ok { a with m_sx := s[0]!, m_sy := s[1]!, m_dirty := true } := by
  unfold lin2.set_scale lin2.set_scale_state
  rw [if_neg (not_ne_iff.mpr h1), if_neg (not_not_intro h2), if_neg (not_not_intro h3)]

theorem lin2.set_scale_ok_iff {a : lin2} {s : List ℝ} {b : lin2} :
    a.set_scale s = Except.ok b ↔
      s.length = 2 ∧ s[0]! > 0 ∧ s[1]! > 0 ∧
        b = { a with m_sx := s[0]!, m_sy := s[1]!, m_dirty := true } := by
  by_cases h1 : s.length = 2
  · by_cases h2 : s[0]! > 0
    · by_cases h3 : s[1]! > 0
      · rw [lin2.set_scale_eq_ok h1 h2 h3]
        simp only [Except.ok.injEq]
        constructor
        · intro h
          exact ⟨h1, h2, h3, h.symm⟩
        · rintro ⟨-, -, -, rfl⟩
          rfl
      · rw [lin2.set_scale_eq_error3 h1 h2 h3]
        simp [h3]
    · rw [lin2.set_scale_eq_error2 h1 h2]
      simp [h2]
  · rw [lin2.set_scale_eq_error1 h1]
    simp [h1]

theorem lin2.set_scale_error_iff {a : lin2} {s : List ℝ} :
    (∃ e, a.set_scale s = Except.error e) ↔
      (s.length ≠ 2 ∨ ¬ (s[0]! > 0) ∨ ¬ (s[1]! > 0)) := by
  by_cases h1 : s.length = 2
  · by_cases h2 : s[0]! > 0
    · by_cases h3 : s[1]! > 0
      · rw [lin2.set_scale_eq_ok h1 h2 h3]
        simp [h1, h2, h3]
      · rw [lin2.set_scale_eq_error3 h1 h2 h3]
        simp [h3]
    · rw [lin2.set_scale_eq_error2 h1 h2]
      simp [h2]
  · rw [lin2.set_scale_eq_error1 h1]
    simp [h1]

theorem lin2.set_shear_eq_error1 {a : lin2} {sh : ℝ}
    (h1 : feq (radian_range sh) (π / 2)) :
    a.set_shear sh =
      Except.error ("Singular case detected. Shearing of right angle is not accepted.") := by
  unfold lin2.set_shear lin2.set_shear_state
  rw [if_pos h1]

theorem lin2.set_shear_eq_error2 {a : lin2} {sh : ℝ}
    (h1 : ¬ feq (radian_range sh) (π / 2)) (h2 : feq (radian_range sh) (-(π / 2))) :
    a.set_shear sh =
      Except.error
        ("Singular case detected. Shearing of negative right angle is not accepted.") := by
  unfold lin2.set_shear lin2.set_shear_state
  rw [if_neg h1, if_pos h2]

theorem lin2.set_shear_eq_ok {a : lin2} {sh : ℝ}
    (h1 : ¬ feq (radian_range sh) (π / 2)) (h2 : ¬ feq (radian_range sh) (-(π / 2))) :
    a.set_shear sh = Except.ok { a with m_h := radian_range sh, m_dirty := true } := by
  unfold lin2.set_shear lin2.set_shear_state
  rw [if_neg h1, if_neg h2]

theorem lin2.set_shear_ok_iff {a : lin2} {sh : ℝ} {b : lin2} :
    a.set_shear sh = Except.ok b ↔
      ¬ feq (radian_range sh) (π / 2) ∧ ¬ feq (radian_range sh) (-(π / 2)) ∧
        b = { a with m_h := radian_range sh, m_dirty := true } := by
  by_cases h1 : feq (radian_range sh) (π / 2)
  · rw [lin2.set_shear_eq_error1 h1]
    simp [h1]
  · by_cases h2 : feq (radian_range sh) (-(π / 2))
    · rw [lin2.set_shear_eq_error2 h1 h2]
      simp [h1, h2]
    · rw [lin2.set_shear_eq_ok h1 h2]
      simp only [Except.ok.injEq]
      constructor
      · intro h
        exact ⟨h1, h2, h.symm⟩
      · rintro ⟨-, -, rfl⟩
        rfl

theorem lin2.set_shear_error_iff {a : lin2} {sh : ℝ} :
    (∃ e, a.set_shear sh = Except.error e) ↔
      (feq (radian_range sh) (π / 2) ∨ feq (radian_range sh) (-(π / 2))) := by
  by_cases h1 : feq (radian_range sh) (π / 2)
  · rw [lin2.set_shear_eq_error1 h1]
    simp [h1]
  · by_cases h2 : feq (radian_range sh) (-(π / 2))
    · rw [lin2.set_shear_eq_error2 h1 h2]
      simp [h1, h2]
    · rw [lin2.set_shear_eq_ok h1 h2]
      simp [h1, h2]

theorem mk_lin2_ok_iff {s : List ℝ} {ang sh : ℝ} {b : lin2} :
    mk_lin2 s ang sh = Except.ok b ↔
      s.length = 2 ∧ s[0]! > 0 ∧ s[1]! > 0 ∧
        ¬ feq (radian_range sh) (π / 2) ∧ ¬ feq (radian_range sh) (-(π / 2)) ∧
        b = ⟨s[0]!, s[1]!, radian_range ang, radian_range sh, true, 0, 0, 0, 0⟩ := by
  unfold mk_lin2
  constructor
  · intro h
    cases hsc : lin2.base.set_scale s with
    | error e => rw [hsc] at h; exact absurd h (by simp [Except.bind])
    | ok a1 =>
      rw [hsc] at h
      simp only [Except.bind] at h
      obtain ⟨hlen, h0, h1, ha1⟩ := lin2.set_scale_ok_iff.mp hsc
      obtain ⟨hf1, hf2, hb⟩ := lin2.set_shear_ok_iff.mp h
      subst ha1
      subst hb
      refine ⟨hlen, h0, h1, hf1, hf2, ?_⟩
      simp [lin2.set_angle, lin2.base]
  · rintro ⟨hlen, h0, h1, hf1, hf2, rfl⟩
    have hsc : lin2.base.set_scale s =
        Except.ok { lin2.base with m_sx := s[0]!, m_sy := s[1]!, m_dirty := true } :=
      lin2.set_scale_ok_iff.mpr ⟨hlen, h0, h1, rfl⟩
    rw [hsc]
    simp only [Except.bind]
    exact lin2.set_shear_ok_iff.mpr ⟨hf1, hf2, by simp [lin2.set_angle, lin2.base]⟩

theorem mk_lin2_valid {s : List ℝ} {ang sh : ℝ} {b : lin2}
    (h : mk_lin2 s ang sh = Except.ok b) : b.valid := by
  obtain ⟨hlen, h0, h1, hf1, hf2, rfl⟩ := mk_lin2_ok_iff.mp h
  refine ⟨?_, ?_, radian_range_mem ang, radian_range_mem sh, hf1, hf2⟩
  · exact_mod_cast h0
  · exact_mod_cast h1

theorem lin2.from_matrix_valid {m : Matrix (Fin 2) (Fin 2) ℝ} {b : lin2}
    (h : lin2.from_matrix m = Except.ok b) : b.valid := mk_lin2_valid h

theorem lin2.cmul_valid {a c b : lin2} (h : a.cmul c = Except.ok b) : b.valid :=
  lin2.from_matrix_valid h

theorem lin2.invert_valid {a b : lin2} (h : a.invert = Except.ok b) : b.valid := by
  unfold lin2.invert at h
  split_ifs at h
  · exact mk_lin2_valid h
  · exact mk_lin2_valid h

/-- Identity transform: the record produced by the default constructor call. -/
def lin2.idt : lin2 := ⟨1, 1, 0, 0, true, 0, 0, 0, 0⟩

theorem pi_div_two_large : (1e-6 : ℝ) < π / 2 := by
  have := Real.pi_gt_three
  linarith

theorem not_feq_zero_pi_div_two : ¬ feq 0 (π / 2) := by
  unfold feq
  rw [not_lt, zero_sub, abs_neg, abs_of_pos (by linarith [Real.pi_gt_three])]
  exact pi_div_two_large.le

theorem not_feq_zero_neg_pi_div_two : ¬ feq 0 (-(π / 2)) := by
  unfold feq
  rw [not_lt, zero_sub, neg_neg, abs_of_pos (by linarith [Real.pi_gt_three])]
  exact pi_div_two_large.le

theorem mk_idt : mk_lin2 [1, 1] 0 0 = Except.ok lin2.idt := by
  rw [mk_lin2_ok_iff]
  refine ⟨rfl, ?_, ?_, ?_, ?_, ?_⟩
  · norm_num
  · norm_num
  · rw [radian_range_zero]; exact not_feq_zero_pi_div_two
  · rw [radian_range_zero]; exact not_feq_zero_neg_pi_div_two
  · rw [radian_range_zero]
    simp [lin2.idt]

theorem hypot_one_zero : hypot 1 0 = 1 := by
  unfold hypot
  norm_num

theorem cleanse_idt :
    lin2.idt.cleanse = ⟨1, 1, 0, 0, false, 1, 0, 1, 0⟩ := by
  unfold lin2.cleanse lin2.idt
  norm_num [hypot_one_zero, atan2_zero_of_pos one_pos]

theorem invert_idt : lin2.idt.invert = Except.ok lin2.idt := by
  unfold lin2.invert
  rw [cleanse_idt]
  dsimp only
  rw [if_pos ⟨by linarith [Real.pi_pos], by linarith [Real.pi_pos]⟩]
  norm_num [Real.cos_zero]
  rw [radian_range_zero, radian_range_pi]
  exact mk_idt

theorem matrix_idt : lin2.idt.matrix = 1 := by
  unfold lin2.matrix lin2.idt
  rw [Matrix.one_fin_two]
  norm_num

/-- C9: the default-constructed transform is the identity: it has scale
`[1, 1]`, angle `0`, shear `0`, its matrix is the 2-by-2 identity, and
inverting it yields the identity transform again. -/
theorem C9_default_identity :
    mk_lin2 [1, 1] 0 0 = Except.ok lin2.idt ∧
    lin2.idt.m_sx = 1 ∧ lin2.idt.m_sy = 1 ∧ lin2.idt.m_r = 0 ∧ lin2.idt.m_h = 0 ∧
    lin2.idt.matrix = 1 ∧
    lin2.idt.invert = Except.ok lin2.idt :=
  ⟨mk_idt, rfl, rfl, rfl, rfl, matrix_idt, invert_idt⟩

/-- C7: `radian_range` always lands in `[-pi, pi)` and changes its input by an
integer multiple of pi (a period-pi reduction, not period-2*pi); it is the
identity on inputs already in `[-pi, pi)`; and it maps `3*pi/2` to `pi/2`
(not `-pi/2`). -/
theorem C7_radian_range_spec :
    (∀ x : ℝ, radian_range x ∈ Set.Ico (-π) π ∧ ∃ k : ℤ, x - radian_range x = k * π) ∧
    (∀ x : ℝ, x ∈ Set.Ico (-π) π → radian_range x = x) ∧
    radian_range (3 * π / 2) = π / 2 := by
  refine ⟨fun x => ⟨radian_range_mem x, ?_⟩, fun x hx => radian_range_eq_self hx.1 hx.2, ?_⟩
  · obtain ⟨k, hk⟩ := radian_range_exists_int x
    exact ⟨k, by rw [hk]; ring⟩
  · have h1 : π ≤ 3 * π / 2 := by linarith [Real.pi_pos]
    have h2 : 3 * π / 2 - π = π / 2 := by ring
    rw [radian_range, radian_range_sub_of_ge h1, h2,
      radian_range_sub_of_lt (by linarith [Real.pi_pos]),
      radian_range_add_of_ge (by linarith [Real.pi_pos])]

theorem C7_radian_range_spec_witness :
    radian_range 1 = 1 ∧ radian_range (3 * π / 2) = π / 2 :=
  ⟨C7_radian_range_spec.2.1 1
      ⟨by linarith [Real.pi_gt_three], by linarith [Real.pi_gt_three]⟩,
    C7_radian_range_spec.2.2⟩

/-- C5: the scale setter raises exactly when the given list is not a pair or
one of its two components is not strictly positive; any strictly positive
pair is accepted; in particular `(0, 1)` and `(-1, 2)` are rejected. -/
theorem C5_scale_validation :
    (∀ (a : lin2) (s : List ℝ),
      (∃ e, a.set_scale s = Except.error e) ↔
        (s.length ≠ 2 ∨ ¬ (s[0]! > 0) ∨ ¬ (s[1]! > 0))) ∧
    (∀ (a : lin2) (s : List ℝ),
      (∃ b, a.set_scale s = Except.ok b) ↔
        (s.length = 2 ∧ s[0]! > 0 ∧ s[1]! > 0)) ∧
    (∀ a : lin2, ∃ e, a.set_scale [0, 1] = Except.error e) ∧
    (∀ a : lin2, ∃ e, a.set_scale [-1, 2] = Except.error e) := by
  refine ⟨fun a s => lin2.set_scale_error_iff, fun a s => ?_, fun a => ?_, fun a => ?_⟩
  · constructor
    · rintro ⟨b, hb⟩
      obtain ⟨h1, h2, h3, -⟩ := lin2.set_scale_ok_iff.mp hb
      exact ⟨h1, h2, h3⟩
    · rintro ⟨h1, h2, h3⟩
      exact ⟨_, lin2.set_scale_eq_ok h1 h2 h3⟩
  · refine lin2.set_scale_error_iff.mpr (Or.inr (Or.inl ?_))
    simp
  · refine lin2.set_scale_error_iff.mpr (Or.inr (Or.inl ?_))
    simp

theorem feq_pi_div_two_self : feq (radian_range (π / 2)) (π / 2) := by
  rw [radian_range_eq_self (by linarith [Real.pi_pos]) (by linarith [Real.pi_pos])]
  unfold feq
  rw [sub_self, abs_zero]
  norm_num

/-- C6: the shear setter first canonicalizes through `radian_range` and
raises exactly when the canonicalized value is within the `feq` tolerance of
`pi/2` or `-pi/2`; otherwise the canonicalized value is stored (and the cache
marked dirty); in particular `shear = pi/2` is rejected. -/
theorem C6_shear_validation :
    (∀ (a : lin2) (sh : ℝ),
      (∃ e, a.set_shear sh = Except.error e) ↔
        (feq (radian_range sh) (π / 2) ∨ feq (radian_range sh) (-(π / 2)))) ∧
    (∀ (a : lin2) (sh : ℝ) (b : lin2),
      a.set_shear sh = Except.ok b ↔
        (¬ feq (radian_range sh) (π / 2) ∧ ¬ feq (radian_range sh) (-(π / 2)) ∧
          b = { a with m_h := radian_range sh, m_dirty := true })) ∧
    (∀ a : lin2, ∃ e, a.set_shear (π / 2) = Except.error e) :=
  ⟨fun _ _ => lin2.set_shear_error_iff, fun _ _ _ => lin2.set_shear_ok_iff,
    fun _ => lin2.set_shear_error_iff.mpr (Or.inl feq_pi_div_two_self)⟩

/-- C10: setter failure is atomic: whenever the scale setter or the shear
setter raises, the state of the object after the call is exactly the state
before it (validation happens entirely before any mutation). -/
theorem C10_setter_atomicity :
    (∀ (a : lin2) (s : List ℝ) (e : String),
      (a.set_scale_state s).2 = some e → (a.set_scale_state s).1 = a) ∧
    (∀ (a : lin2) (sh : ℝ) (e : String),
      (a.set_shear_state sh).2 = some e → (a.set_shear_state sh).1 = a) := by
  constructor
  · intro a s e h
    unfold lin2.set_scale_state at h ⊢
    split_ifs at h ⊢ <;> first | rfl | simp at h
  · intro a sh e h
    unfold lin2.set_shear_state at h ⊢
    split_ifs at h ⊢ <;> first | rfl | simp at h

theorem C10_setter_atomicity_witness :
    (lin2.idt.set_scale_state [0, 1]).1 = lin2.idt ∧
    (lin2.idt.set_shear_state (π / 2)).1 = lin2.idt := by
  constructor
  · refine C10_setter_atomicity.1 lin2.idt [0, 1]
      ("The first scale component is not positive.") ?_
    unfold lin2.set_scale_state
    rw [if_neg (by norm_num), if_pos (by simp)]
  · refine C10_setter_atomicity.2 lin2.idt (π / 2)
      ("Singular case detected. Shearing of right angle is not accepted.") ?_
    unfold lin2.set_shear_state
    rw [if_pos feq_pi_div_two_self]

/-- C8: every transform accepted by the validating constructor satisfies the
data-model invariant (positive scales, angles in `[-pi, pi)`, shear away from
the singular values), and every public operation that returns a new transform
(the setters, `from_matrix`, multiplication, inversion, division,
left-division, conjugation) only ever returns transforms satisfying it. -/
theorem C8_invariant_preservation :
    (∀ (s : List ℝ) (ang sh : ℝ) (b : lin2), mk_lin2 s ang sh = Except.ok b → b.valid) ∧
    (∀ (a : lin2) (s : List ℝ) (b : lin2), a.valid → a.set_scale s = Except.ok b → b.valid) ∧
    (∀ (a : lin2) (ang : ℝ), a.valid → (a.set_angle ang).valid) ∧
    (∀ (a : lin2) (sh : ℝ) (b : lin2), a.valid → a.set_shear sh = Except.ok b → b.valid) ∧
    (∀ (m : Matrix (Fin 2) (Fin 2) ℝ) (b : lin2),
      lin2.from_matrix m = Except.ok b → b.valid) ∧
    (∀ (a c b : lin2), a.cmul c = Except.ok b → b.valid) ∧
    (∀ (a b : lin2), a.invert = Except.ok b → b.valid) ∧
    (∀ (a c b : lin2), a.truediv c = Except.ok b → b.valid) ∧
    (∀ (a c b : lin2), a.mod c = Except.ok b → b.valid) ∧
    (∀ (a c b : lin2), a.conjugate c = Except.ok b → b.valid) := by
  have hdiv : ∀ (a c b : lin2), a.truediv c = Except.ok b → b.valid := by
    intro a c b h
    unfold lin2.truediv at h
    cases hic : c.invert with
    | error e => rw [hic] at h; exact absurd h (by simp [Except.bind])
    | ok ic =>
        rw [hic] at h
        simp only [Except.bind] at h
        exact lin2.cmul_valid h
  refine ⟨fun s ang sh b h => mk_lin2_valid h, ?_, ?_, ?_,
    fun m b h => lin2.from_matrix_valid h, fun a c b h => lin2.cmul_valid h,
    fun a b h => lin2.invert_valid h, hdiv, ?_, ?_⟩
  · intro a s b hv h
    obtain ⟨h1, h2, h3, rfl⟩ := lin2.set_scale_ok_iff.mp h
    obtain ⟨-, -, hr, hh, hf1, hf2⟩ := hv
    exact ⟨h2, h3, hr, hh, hf1, hf2⟩
  · intro a ang hv
    obtain ⟨hsx, hsy, -, hh, hf1, hf2⟩ := hv
    exact ⟨hsx, hsy, radian_range_mem ang, hh, hf1, hf2⟩
  · intro a sh b hv h
    obtain ⟨hf1, hf2, rfl⟩ := lin2.set_shear_ok_iff.mp h
    obtain ⟨hsx, hsy, hr, -, -, -⟩ := hv
    exact ⟨hsx, hsy, hr, radian_range_mem sh, hf1, hf2⟩
  · intro a c b h
    unfold lin2.mod at h
    cases hia : a.invert with
    | error e => rw [hia] at h; exact absurd h (by simp [Except.bind])
    | ok ia =>
        rw [hia] at h
        simp only [Except.bind] at h
        exact lin2.cmul_valid h
  · intro a c b h
    unfold lin2.conjugate at h
    cases hq : c.truediv a with
    | error e => rw [hq] at h; exact absurd h (by simp [Except.bind])
    | ok q =>
        rw [hq] at h
        simp only [Except.bind] at h
        exact lin2.cmul_valid h

theorem C8_invariant_preservation_witness :
    lin2.idt.valid ∧ (lin2.idt.set_angle 0).valid :=
  have h := C8_invariant_preservation.1 [1, 1] 0 0 lin2.idt mk_idt
  ⟨h, C8_invariant_preservation.2.2.1 lin2.idt 0 h⟩

/-- C3: the Lie action `a << v` is broken in the code: for a well-shaped
2-vector it raises `AttributeError` (it calls the nonexistent method
`to_matrix`; the accessor is the property `matrix`), instead of returning the
matrix-vector product; for a wrongly shaped vector it does raise the shape
error first. -/
theorem C3_apply_attribute_error :
    lin2.idt.lshift [1, 0] =
      Except.error ("AttributeError: lin2 object has no attribute to_matrix") ∧
    lin2.idt.lshift [1, 0, 0] = Except.error ("Input shape is not (2,).") := by
  constructor <;> (unfold lin2.lshift; norm_num)

theorem abs_le_hypot_left (x y : ℝ) : |x| ≤ hypot x y := by
  have h : x ^ 2 ≤ x * x + y * y := by nlinarith [mul_self_nonneg y]
  calc |x| = Real.sqrt (x ^ 2) := (Real.sqrt_sq_eq_abs x).symm
  _ ≤ hypot x y := Real.sqrt_le_sqrt h

theorem abs_le_hypot_right (x y : ℝ) : |y| ≤ hypot x y := by
  have h : y ^ 2 ≤ x * x + y * y := by nlinarith [mul_self_nonneg x]
  calc |y| = Real.sqrt (y ^ 2) := (Real.sqrt_sq_eq_abs y).symm
  _ ≤ hypot x y := Real.sqrt_le_sqrt h

theorem sqrt_two_ge_onefour : (1.4 : ℝ) ≤ Real.sqrt 2 := by
  have h := Real.sq_sqrt (by norm_num : (0:ℝ) ≤ 2)
  nlinarith [Real.sqrt_nonneg 2]

theorem cos_pi_div_four_ge : (0.7 : ℝ) ≤ Real.cos (π / 4) := by
  rw [Real.cos_pi_div_four]
  nlinarith [sqrt_two_ge_onefour]

theorem sin_pi_div_four_ge : (0.7 : ℝ) ≤ Real.sin (π / 4) := by
  rw [Real.sin_pi_div_four]
  nlinarith [sqrt_two_ge_onefour]

theorem abs_sin_eq_sin_abs {u : ℝ} (h1 : -π ≤ u) (h2 : u ≤ π) :
    |Real.sin u| = Real.sin |u| := by
  rcases le_or_lt 0 u with hu | hu
  · rw [abs_of_nonneg hu, abs_of_nonneg (Real.sin_nonneg_of_nonneg_of_le_pi hu h2)]
  · rw [abs_of_neg hu, Real.sin_neg,
      abs_of_nonpos (Real.sin_nonpos_of_nonnpos_of_neg_pi_le hu.le h1)]

/-- A shear angle in `[-pi, pi)` whose distance to both `pi/2` and `-pi/2` is
at least `d` (with `0 < d <= pi/2`) has `|cos|` at least `sin d`. -/
theorem sin_le_abs_cos_of_far {x d : ℝ} (hd0 : 0 < d) (hd : d ≤ π / 2)
    (hx1 : -π ≤ x) (hx2 : x < π)
    (h1 : d ≤ |x - π / 2|) (h2 : d ≤ |x + π / 2|) :
    Real.sin d ≤ |Real.cos x| := by
  rcases le_or_lt 0 x with hx0 | hx0
  · have hcos : Real.cos x = -Real.sin (x - π / 2) := by
      rw [Real.sin_sub_pi_div_two]
      ring
    have habs : |x - π / 2| ≤ π / 2 := by
      rw [abs_le]
      constructor <;> linarith
    have hmono : Real.sin d ≤ Real.sin |x - π / 2| :=
      Real.sin_le_sin_of_le_of_le_pi_div_two (by linarith) habs h1
    have heq : |Real.sin (x - π / 2)| = Real.sin |x - π / 2| :=
      abs_sin_eq_sin_abs (by linarith [Real.pi_pos]) (by linarith [Real.pi_pos])
    rw [hcos, abs_neg, heq]
    exact hmono
  · have hcos : Real.cos x = Real.sin (x + π / 2) := (Real.sin_add_pi_div_two x).symm
    have habs : |x + π / 2| ≤ π / 2 := by
      rw [abs_le]
      constructor <;> linarith
    have hmono : Real.sin d ≤ Real.sin |x + π / 2| :=
      Real.sin_le_sin_of_le_of_le_pi_div_two (by linarith) habs h2
    have heq : |Real.sin (x + π / 2)| = Real.sin |x + π / 2| :=
      abs_sin_eq_sin_abs (by linarith [Real.pi_pos]) (by linarith [Real.pi_pos])
    rw [hcos, heq]
    exact hmono

theorem sin_eps_pos : 0 < Real.sin 1e-6 :=
  Real.sin_pos_of_pos_of_lt_pi (by norm_num) (by linarith [Real.pi_gt_three])

theorem feq_or_of_abs_cos_lt {x : ℝ} (hx1 : -π ≤ x) (hx2 : x < π)
    (h : |Real.cos x| < Real.sin 1e-6) : feq x (π / 2) ∨ feq x (-(π / 2)) := by
  by_contra hcon
  push_neg at hcon
  obtain ⟨hf1, hf2⟩ := hcon
  unfold feq at hf1 hf2
  push_neg at hf1 hf2
  have h2' : (1e-6 : ℝ) ≤ |x + π / 2| := by
    rw [← sub_neg_eq_add]
    exact hf2
  exact absurd h (not_lt.mpr
    (sin_le_abs_cos_of_far (by norm_num) (by linarith [Real.pi_gt_three]) hx1 hx2 hf1 h2'))

theorem valid_abs_cos_h {a : lin2} (hv : a.valid) : Real.sin 1e-6 ≤ |Real.cos a.m_h| := by
  obtain ⟨-, -, -, hh, hf1, hf2⟩ := hv
  unfold feq at hf1 hf2
  push_neg at hf1 hf2
  refine sin_le_abs_cos_of_far (by norm_num) (by linarith [Real.pi_gt_three]) hh.1 hh.2 hf1 ?_
  rw [← sub_neg_eq_add]
  exact hf2

theorem valid_cos_h_ne {a : lin2} (hv : a.valid) : Real.cos a.m_h ≠ 0 := by
  have h1 := valid_abs_cos_h hv
  have h2 := sin_eps_pos
  intro h0
  rw [h0, abs_zero] at h1
  linarith

theorem cleanse_polar {a : lin2} (h : a.cacheOK) :
    a.cleanse.m_lx * Real.cos a.cleanse.m_qx = a.m_sx * Real.cos a.m_r ∧
    a.cleanse.m_lx * Real.sin a.cleanse.m_qx = a.m_sy * Real.sin (a.m_r + a.m_h) ∧
    a.cleanse.m_ly * Real.cos a.cleanse.m_qy = a.m_sy * Real.cos (a.m_r + a.m_h) ∧
    a.cleanse.m_ly * Real.sin a.cleanse.m_qy = a.m_sx * Real.sin a.m_r := by
  obtain ⟨hsx, hsy, hr, hh⟩ := lin2.cleanse_params a
  obtain ⟨hlx, hqx, hly, hqy⟩ := lin2.cleanse_cacheVals h
  rw [hlx, hqx, hly, hqy, hsx, hsy, hr, hh]
  exact ⟨hypot_mul_cos _ _, hypot_mul_sin _ _, hypot_mul_cos _ _, hypot_mul_sin _ _⟩

theorem cleanse_cos_sub {a : lin2} (h : a.cacheOK) :
    a.cleanse.m_lx * a.cleanse.m_ly *
        Real.cos (a.cleanse.m_qx - a.cleanse.m_qy) =
      a.m_sx * a.m_sy * Real.cos a.m_h := by
  obtain ⟨h1, h2, h3, h4⟩ := cleanse_polar h
  have hch : Real.cos a.m_h = Real.cos (a.m_r + a.m_h - a.m_r) := by
    norm_num
  calc a.cleanse.m_lx * a.cleanse.m_ly * Real.cos (a.cleanse.m_qx - a.cleanse.m_qy)
      = (a.cleanse.m_lx * Real.cos a.cleanse.m_qx) *
          (a.cleanse.m_ly * Real.cos a.cleanse.m_qy) +
        (a.cleanse.m_lx * Real.sin a.cleanse.m_qx) *
          (a.cleanse.m_ly * Real.sin a.cleanse.m_qy) := by
        rw [Real.cos_sub]
        ring
  _ = (a.m_sx * Real.cos a.m_r) * (a.m_sy * Real.cos (a.m_r + a.m_h)) +
        (a.m_sy * Real.sin (a.m_r + a.m_h)) * (a.m_sx * Real.sin a.m_r) := by
        rw [h1, h2, h3, h4]
  _ = a.m_sx * a.m_sy * Real.cos a.m_h := by
        rw [hch, Real.cos_sub]
        ring

theorem cleanse_nondegenerate {a : lin2} (hv : a.valid) (hc : a.cacheOK) :
    0 < a.cleanse.m_lx ∧ 0 < a.cleanse.m_ly ∧
      Real.cos (a.cleanse.m_qx - a.cleanse.m_qy) ≠ 0 := by
  have hkey := cleanse_cos_sub hc
  have hne : a.m_sx * a.m_sy * Real.cos a.m_h ≠ 0 :=
    mul_ne_zero (mul_ne_zero hv.1.ne' hv.2.1.ne') (valid_cos_h_ne hv)
  rw [← hkey] at hne
  obtain ⟨hlx, -, hly, -⟩ := lin2.cleanse_cacheVals hc
  have hlx0 : 0 ≤ a.cleanse.m_lx := by rw [hlx]; exact hypot_nonneg _ _
  have hly0 : 0 ≤ a.cleanse.m_ly := by rw [hly]; exact hypot_nonneg _ _
  refine ⟨?_, ?_, fun h0 => hne (by rw [h0, mul_zero])⟩
  · rcases hlx0.lt_or_eq with h | h
    · exact h
    · exact absurd (by rw [← h, zero_mul, zero_mul]) hne
  · rcases hly0.lt_or_eq with h | h
    · exact h
    · exact absurd (by rw [← h, mul_zero, zero_mul]) hne

theorem mk_lin2_error_of_shear {s : List ℝ} {ang sh : ℝ}
    (h : feq (radian_range sh) (π / 2) ∨ feq (radian_range sh) (-(π / 2))) :
    ∃ e, mk_lin2 s ang sh = Except.error e := by
  unfold mk_lin2
  cases hsc : lin2.base.set_scale s with
  | error e =>
      exact ⟨e, rfl⟩
  | ok a1 =>
      obtain ⟨e, he⟩ := (@lin2.set_shear_error_iff (a1.set_angle ang) sh).mpr h
      refine ⟨e, ?_⟩
      simpa [Except.bind] using he

theorem abs_cos_lt_of_product {A B c s : ℝ} (hA : 700 ≤ A) (hB : 700 ≤ B)
    (hs : 0 < s) (hkey : A * B * c = 1000 * s) : |c| < s := by
  have hA0 : (0:ℝ) ≤ A := by linarith
  have hB0 : (0:ℝ) ≤ B := by linarith
  have hAB : (490000:ℝ) ≤ A * B := by nlinarith
  have habs : A * B * |c| = 1000 * s := by
    calc A * B * |c| = |A * B * c| := by
          rw [abs_mul, abs_mul, abs_of_nonneg hA0, abs_of_nonneg hB0]
    _ = |1000 * s| := by rw [hkey]
    _ = 1000 * s := abs_of_pos (by linarith)
  by_contra hge
  push_neg at hge
  have h1 : (490000:ℝ) * s ≤ A * B * |c| := by
    calc (490000:ℝ) * s ≤ A * B * s := mul_le_mul_of_nonneg_right hAB hs.le
    _ ≤ A * B * |c| := mul_le_mul_of_nonneg_left hge (by linarith)
  rw [habs] at h1
  linarith

/-- Counterexample state for round-trip inversion: scale `(1000, 1)`, angle
`pi/4`, shear `pi/2 - 1e-6` (exactly at the tolerance boundary, hence
accepted by the validating constructor). -/
def lin2.cex : lin2 := ⟨1000, 1, π / 4, π / 2 - 1e-6, true, 0, 0, 0, 0⟩

theorem mk_cex : mk_lin2 [1000, 1] (π / 4) (π / 2 - 1e-6) = Except.ok lin2.cex := by
  have hπ := Real.pi_gt_three
  have hrr1 : radian_range (π / 4) = π / 4 :=
    radian_range_eq_self (by linarith) (by linarith)
  have hrr2 : radian_range (π / 2 - 1e-6) = π / 2 - 1e-6 :=
    radian_range_eq_self (by linarith) (by linarith)
  rw [mk_lin2_ok_iff]
  refine ⟨rfl, by norm_num, by norm_num, ?_, ?_, ?_⟩
  · rw [hrr2]
    unfold feq
    rw [show π / 2 - 1e-6 - π / 2 = -(1e-6) by ring, abs_neg, abs_of_pos (by norm_num)]
    norm_num
  · rw [hrr2]
    unfold feq
    rw [show π / 2 - 1e-6 - -(π / 2) = π - 1e-6 by ring, abs_of_pos (by linarith), not_lt]
    linarith
  · rw [hrr1, hrr2]
    simp [lin2.cex]

theorem valid_cex : lin2.cex.valid := mk_lin2_valid mk_cex

theorem cleanse_cex :
    lin2.cex.cleanse = ⟨1000, 1, π / 4, π / 2 - 1e-6, false,
      hypot (1000 * Real.cos (π / 4)) (1 * Real.sin (π / 4 + (π / 2 - 1e-6))),
      atan2 (1 * Real.sin (π / 4 + (π / 2 - 1e-6))) (1000 * Real.cos (π / 4)),
      hypot (1 * Real.cos (π / 4 + (π / 2 - 1e-6))) (1000 * Real.sin (π / 4)),
      atan2 (1000 * Real.sin (π / 4)) (1 * Real.cos (π / 4 + (π / 2 - 1e-6)))⟩ := by
  unfold lin2.cleanse lin2.cex
  rw [if_pos rfl]

theorem invert_cex_error : ∃ e, lin2.cex.invert = Except.error e := by
  have hπ := Real.pi_gt_three
  have hsin := sin_eps_pos
  have hco : lin2.cex.cacheOK := Or.inl rfl
  have hkey := cleanse_cos_sub (a := lin2.cex) hco
  rw [cleanse_cex] at hkey
  dsimp only at hkey
  have hkey' : hypot (1000 * Real.cos (π / 4)) (1 * Real.sin (π / 4 + (π / 2 - 1e-6))) *
      hypot (1 * Real.cos (π / 4 + (π / 2 - 1e-6))) (1000 * Real.sin (π / 4)) *
      Real.cos (atan2 (1 * Real.sin (π / 4 + (π / 2 - 1e-6))) (1000 * Real.cos (π / 4)) -
        atan2 (1000 * Real.sin (π / 4)) (1 * Real.cos (π / 4 + (π / 2 - 1e-6)))) =
      1000 * Real.sin 1e-6 := by
    rw [hkey]
    show (1000 : ℝ) * 1 * Real.cos (π / 2 - 1e-6) = 1000 * Real.sin 1e-6
    rw [Real.cos_pi_div_two_sub]
    ring
  have hlx : (700 : ℝ) ≤
      hypot (1000 * Real.cos (π / 4)) (1 * Real.sin (π / 4 + (π / 2 - 1e-6))) := by
    refine le_trans ?_ (abs_le_hypot_left _ _)
    have h7 := cos_pi_div_four_ge
    rw [abs_of_nonneg (by linarith)]
    linarith
  have hly : (700 : ℝ) ≤
      hypot (1 * Real.cos (π / 4 + (π / 2 - 1e-6))) (1000 * Real.sin (π / 4)) := by
    refine le_trans ?_ (abs_le_hypot_right _ _)
    have h7 := sin_pi_div_four_ge
    rw [abs_of_nonneg (by linarith)]
    linarith
  have hcosd : |Real.cos (atan2 (1 * Real.sin (π / 4 + (π / 2 - 1e-6)))
        (1000 * Real.cos (π / 4)) -
      atan2 (1000 * Real.sin (π / 4)) (1 * Real.cos (π / 4 + (π / 2 - 1e-6))))| <
      Real.sin 1e-6 :=
    abs_cos_lt_of_product hlx hly hsin hkey'
  unfold lin2.invert
  rw [cleanse_cex]
  dsimp only
  rw [if_pos ⟨by linarith, by linarith⟩]
  apply mk_lin2_error_of_shear
  rw [radian_range_idem]
  have hmem := radian_range_mem (π +
    atan2 (1000 * Real.sin (π / 4)) (1 * Real.cos (π / 4 + (π / 2 - 1e-6))) -
    atan2 (1 * Real.sin (π / 4 + (π / 2 - 1e-6))) (1000 * Real.cos (π / 4)))
  refine feq_or_of_abs_cos_lt hmem.1 hmem.2 ?_
  rw [abs_cos_radian_range]
  have hsplit : π +
      atan2 (1000 * Real.sin (π / 4)) (1 * Real.cos (π / 4 + (π / 2 - 1e-6))) -
      atan2 (1 * Real.sin (π / 4 + (π / 2 - 1e-6))) (1000 * Real.cos (π / 4)) =
      (atan2 (1000 * Real.sin (π / 4)) (1 * Real.cos (π / 4 + (π / 2 - 1e-6))) -
        atan2 (1 * Real.sin (π / 4 + (π / 2 - 1e-6))) (1000 * Real.cos (π / 4))) + π := by
    ring
  rw [hsplit, Real.cos_add_pi, abs_neg,
    show atan2 (1000 * Real.sin (π / 4)) (1 * Real.cos (π / 4 + (π / 2 - 1e-6))) -
        atan2 (1 * Real.sin (π / 4 + (π / 2 - 1e-6))) (1000 * Real.cos (π / 4)) =
      -(atan2 (1 * Real.sin (π / 4 + (π / 2 - 1e-6))) (1000 * Real.cos (π / 4)) -
        atan2 (1000 * Real.sin (π / 4)) (1 * Real.cos (π / 4 + (π / 2 - 1e-6)))) by ring,
    Real.cos_neg]
  exact hcosd

/-- C2 fails as stated: this transform satisfies the data-model validity
constraints (and is accepted by the constructor), yet `invert` raises instead
of returning an inverse, so `multiply(a, invert(a))` is not defined for it. -/
theorem C2_invert_raises_on_valid :
    mk_lin2 [1000, 1] (π / 4) (π / 2 - 1e-6) = Except.ok lin2.cex ∧
    lin2.cex.valid ∧
    (∃ e, lin2.cex.invert = Except.error e) :=
  ⟨mk_cex, valid_cex, invert_cex_error⟩

theorem lin2.from_matrix_lit {w x y z : ℝ} :
    lin2.from_matrix !![w, x; y, z] =
      mk_lin2 [hypot w y, hypot x z] (radian_range (atan2 y w))
        (radian_range (atan2 x z - radian_range (atan2 y w))) := by
  unfold lin2.from_matrix
  norm_num [Matrix.cons_val_zero, Matrix.cons_val_one, Matrix.head_cons]

theorem hypot_sign_left {e : ℝ} (h : e = 1 ∨ e = -1) : hypot e 0 = 1 := by
  rcases h with rfl | rfl <;> (unfold hypot; norm_num)

theorem hypot_sign_right {e : ℝ} (h : e = 1 ∨ e = -1) : hypot 0 e = 1 := by
  rcases h with rfl | rfl <;> (unfold hypot; norm_num)

theorem rr_atan2_sign {e : ℝ} (h : e = 1 ∨ e = -1) : radian_range (atan2 0 e) = 0 := by
  rcases h with rfl | rfl
  · rw [atan2_zero_of_pos one_pos, radian_range_zero]
  · rw [atan2_zero_of_neg (by norm_num), radian_range_pi]

theorem from_matrix_sign_diag {e0 e3 : ℝ} (h0 : e0 = 1 ∨ e0 = -1)
    (h3 : e3 = 1 ∨ e3 = -1) :
    lin2.from_matrix !![e0, 0; 0, e3] = Except.ok lin2.idt := by
  rw [lin2.from_matrix_lit, hypot_sign_left h0, hypot_sign_right h3,
    rr_atan2_sign h0, sub_zero, rr_atan2_sign h3]
  exact mk_idt

theorem list_pair_get0 (u v : ℝ) : ([u, v] : List ℝ)[0]! = u := by simp

theorem list_pair_get1 (u v : ℝ) : ([u, v] : List ℝ)[1]! = v := by simp

/-- C2, amended: whenever the closed-form inversion succeeds on a valid
transform (with a reachable cache state), composing the transform with its
computed inverse yields a transform whose matrix is exactly the identity —
in particular every entry is within `1e-6` of the identity matrix. -/
theorem C2_mul_invert_identity {a b : lin2} (hv : a.valid) (hc : a.cacheOK)
    (hinv : a.invert = Except.ok b) :
    ∃ c, a.cmul b = Except.ok c ∧ c.matrix = 1 ∧
      ∀ i j, |c.matrix i j - (1 : Matrix (Fin 2) (Fin 2) ℝ) i j| < 1e-6 := by
  obtain ⟨hlx, hly, hcosd⟩ := cleanse_nondegenerate hv hc
  unfold lin2.invert at hinv
  unfold lin2.cmul
  set LX := a.cleanse.m_lx with hLX
  set LY := a.cleanse.m_ly with hLY
  set QX := a.cleanse.m_qx with hQX
  set QY := a.cleanse.m_qy with hQY
  set HH := a.cleanse.m_h with hHH
  by_cases hbr : -(π / 2) < HH ∧ HH < π / 2
  · rw [if_pos hbr] at hinv
    obtain ⟨-, -, -, -, -, hb⟩ := mk_lin2_ok_iff.mp hinv
    rw [list_pair_get0, list_pair_get1, radian_range_idem, radian_range_idem] at hb
    subst hb
    dsimp only
    obtain ⟨kr, hkr⟩ := radian_range_exists_int (-QY)
    obtain ⟨kh, hkh⟩ := radian_range_exists_int (π + QY - QX)
    obtain ⟨sr, hsr, hsrc, -⟩ := cos_sin_sub_int_pi (QX - QY) kr
    obtain ⟨s2, hs2, hs2c, -⟩ := cos_sin_sub_int_pi (QY - QX) (kr + kh - 1)
    have e00 : LX * (1 / Real.cos (QX - QY) / LX) *
        Real.cos (QX + radian_range (-QY)) = sr := by
      rw [hkr, show QX + (-QY - (kr : ℝ) * π) = QX - QY - (kr : ℝ) * π by ring, hsrc]
      field_simp
      ring
    have e10 : LY * (1 / Real.cos (QX - QY) / LX) *
        Real.sin (QY + radian_range (-QY)) = 0 := by
      rw [hkr, show QY + (-QY - (kr : ℝ) * π) = ((-kr : ℤ) : ℝ) * π by push_cast; ring,
        Real.sin_int_mul_pi, mul_zero]
    have e01 : -(LX * (1 / Real.cos (QX - QY) / LY) *
        Real.sin (QX + radian_range (-QY) + radian_range (π + QY - QX))) = 0 := by
      rw [hkr, hkh,
        show QX + (-QY - (kr : ℝ) * π) + (π + QY - QX - (kh : ℝ) * π) =
          ((1 - kr - kh : ℤ) : ℝ) * π by push_cast; ring,
        Real.sin_int_mul_pi, mul_zero, neg_zero]
    have e11 : LY * (1 / Real.cos (QX - QY) / LY) *
        Real.cos (QY + radian_range (-QY) + radian_range (π + QY - QX)) = s2 := by
      rw [hkr, hkh,
        show QY + (-QY - (kr : ℝ) * π) + (π + QY - QX - (kh : ℝ) * π) =
          QY - QX - ((kr + kh - 1 : ℤ) : ℝ) * π by push_cast; ring,
        hs2c, show QY - QX = -(QX - QY) by ring, Real.cos_neg]
      field_simp
      ring
    rw [e00, e01, e10, e11]
    refine ⟨lin2.idt, from_matrix_sign_diag hsr hs2, matrix_idt, fun i j => ?_⟩
    rw [matrix_idt, sub_self, abs_zero]
    norm_num
  · rw [if_neg hbr] at hinv
    obtain ⟨-, -, -, -, -, hb⟩ := mk_lin2_ok_iff.mp hinv
    rw [list_pair_get0, list_pair_get1, radian_range_idem, radian_range_idem] at hb
    subst hb
    dsimp only
    obtain ⟨kr, hkr⟩ := radian_range_exists_int (π - QY)
    obtain ⟨kh, hkh⟩ := radian_range_exists_int (QY - QX)
    obtain ⟨sr, hsr, hsrc, -⟩ := cos_sin_sub_int_pi (QX - QY) (kr - 1)
    obtain ⟨s2, hs2, hs2c, -⟩ := cos_sin_sub_int_pi (QY - QX) (kr + kh - 1)
    have e00 : LX * (-(1 / Real.cos (QX - QY)) / LX) *
        Real.cos (QX + radian_range (π - QY)) = -sr := by
      rw [hkr, show QX + (π - QY - (kr : ℝ) * π) =
          QX - QY - ((kr - 1 : ℤ) : ℝ) * π by push_cast; ring, hsrc]
      field_simp
      ring
    have e10 : LY * (-(1 / Real.cos (QX - QY)) / LX) *
        Real.sin (QY + radian_range (π - QY)) = 0 := by
      rw [hkr, show QY + (π - QY - (kr : ℝ) * π) = ((1 - kr : ℤ) : ℝ) * π by push_cast; ring,
        Real.sin_int_mul_pi, mul_zero]
    have e01 : -(LX * (-(1 / Real.cos (QX - QY)) / LY) *
        Real.sin (QX + radian_range (π - QY) + radian_range (QY - QX))) = 0 := by
      rw [hkr, hkh,
        show QX + (π - QY - (kr : ℝ) * π) + (QY - QX - (kh : ℝ) * π) =
          ((1 - kr - kh : ℤ) : ℝ) * π by push_cast; ring,
        Real.sin_int_mul_pi, mul_zero, neg_zero]
    have e11 : LY * (-(1 / Real.cos (QX - QY)) / LY) *
        Real.cos (QY + radian_range (π - QY) + radian_range (QY - QX)) = -s2 := by
      rw [hkr, hkh,
        show QY + (π - QY - (kr : ℝ) * π) + (QY - QX - (kh : ℝ) * π) =
          QY - QX - ((kr + kh - 1 : ℤ) : ℝ) * π by push_cast; ring,
        hs2c, show QY - QX = -(QX - QY) by ring, Real.cos_neg]
      field_simp
      ring
    rw [e00, e01, e10, e11]
    have hsr' : -sr = 1 ∨ -sr = -1 := by
      rcases hsr with rfl | rfl
      · right; norm_num
      · left; norm_num
    have hs2' : -s2 = 1 ∨ -s2 = -1 := by
      rcases hs2 with rfl | rfl
      · right; norm_num
      · left; norm_num
    refine ⟨lin2.idt, from_matrix_sign_diag hsr' hs2', matrix_idt, fun i j => ?_⟩
    rw [matrix_idt, sub_self, abs_zero]
    norm_num

theorem C2_mul_invert_identity_witness :
    ∃ c, lin2.idt.cmul lin2.idt = Except.ok c ∧ c.matrix = 1 := by
  obtain ⟨c, h1, h2, -⟩ := C2_mul_invert_identity (a := lin2.idt) (b := lin2.idt)
    (mk_lin2_valid mk_idt) (Or.inl rfl) invert_idt
  exact ⟨c, h1, h2⟩

theorem hypot_comm (x y : ℝ) : hypot x y = hypot y x := by
  unfold hypot
  rw [add_comm]

theorem hypot_le_abs_add_abs (x y : ℝ) : hypot x y ≤ |x| + |y| := by
  unfold hypot
  rw [show |x| + |y| = Real.sqrt ((|x| + |y|) ^ 2) from
    (Real.sqrt_sq (by positivity)).symm]
  apply Real.sqrt_le_sqrt
  nlinarith [mul_nonneg (abs_nonneg x) (abs_nonneg y), sq_abs x, sq_abs y]

theorem cos_one_lb : (0.4 : ℝ) ≤ Real.cos 1 := by
  have h := Real.cos_bound (x := 1) (by norm_num)
  rw [abs_le] at h
  norm_num at h
  linarith [h.1]

theorem sin_one_lb : (0.7 : ℝ) ≤ Real.sin 1 := by
  have h := Real.sin_bound (x := 1) (by norm_num)
  rw [abs_le] at h
  norm_num at h
  linarith [h.1]

theorem abs_cos_lt_of_feq_pm {x : ℝ} (h : feq x (π / 2) ∨ feq x (-(π / 2))) :
    |Real.cos x| < Real.sin 1e-6 := by
  have hπ := Real.pi_gt_three
  rcases h with h | h
  · unfold feq at h
    have hc : Real.cos x = -Real.sin (x - π / 2) := by
      rw [Real.sin_sub_pi_div_two]
      ring
    have hb := abs_lt.mp h
    rw [hc, abs_neg, abs_sin_eq_sin_abs (by linarith) (by linarith)]
    exact Real.strictMonoOn_sin
      ⟨by linarith [abs_nonneg (x - π / 2)], by linarith [hb.1, hb.2]⟩
      ⟨by linarith, by linarith⟩ h
  · unfold feq at h
    rw [sub_neg_eq_add] at h
    have hc : Real.cos x = Real.sin (x + π / 2) := (Real.sin_add_pi_div_two x).symm
    have hb := abs_lt.mp h
    rw [hc, abs_sin_eq_sin_abs (by linarith) (by linarith)]
    exact Real.strictMonoOn_sin
      ⟨by linarith [abs_nonneg (x + π / 2)], by linarith [hb.1, hb.2]⟩
      ⟨by linarith, by linarith⟩ h

theorem not_feq_pm_of_le_abs_cos {x : ℝ} (h : Real.sin 1e-6 ≤ |Real.cos x|) :
    ¬ feq x (π / 2) ∧ ¬ feq x (-(π / 2)) := by
  constructor
  · intro hf
    exact absurd h (not_le.mpr (abs_cos_lt_of_feq_pm (Or.inl hf)))
  · intro hf
    exact absurd h (not_le.mpr (abs_cos_lt_of_feq_pm (Or.inr hf)))

/-- The matrix handed to `from_matrix` inside `__cmul__` is exactly the
product of the two operand matrices (the reparametrization
`row1 = lx*(cos qx, -sin qx)`, `row2 = ly*(sin qy, cos qy)` is exact). -/
theorem cmul_matrix_eq {a : lin2} (b : lin2) (hc : a.cacheOK) :
    !![a.cleanse.m_lx * b.m_sx * Real.cos (a.cleanse.m_qx + b.m_r),
       -(a.cleanse.m_lx * b.m_sy * Real.sin (a.cleanse.m_qx + b.m_r + b.m_h));
       a.cleanse.m_ly * b.m_sx * Real.sin (a.cleanse.m_qy + b.m_r),
       a.cleanse.m_ly * b.m_sy * Real.cos (a.cleanse.m_qy + b.m_r + b.m_h)] =
      a.matrix * b.matrix := by
  obtain ⟨h1, h2, h3, h4⟩ := cleanse_polar hc
  have e00 : a.cleanse.m_lx * b.m_sx * Real.cos (a.cleanse.m_qx + b.m_r) =
      a.m_sx * Real.cos a.m_r * (b.m_sx * Real.cos b.m_r) +
        -(a.m_sy * Real.sin (a.m_r + a.m_h)) * (b.m_sx * Real.sin b.m_r) := by
    rw [Real.cos_add]
    linear_combination (b.m_sx * Real.cos b.m_r) * h1 - (b.m_sx * Real.sin b.m_r) * h2
  have e01 : -(a.cleanse.m_lx * b.m_sy * Real.sin (a.cleanse.m_qx + b.m_r + b.m_h)) =
      a.m_sx * Real.cos a.m_r * -(b.m_sy * Real.sin (b.m_r + b.m_h)) +
        -(a.m_sy * Real.sin (a.m_r + a.m_h)) * (b.m_sy * Real.cos (b.m_r + b.m_h)) := by
    rw [show a.cleanse.m_qx + b.m_r + b.m_h = a.cleanse.m_qx + (b.m_r + b.m_h) by ring,
      Real.sin_add]
    linear_combination (-(b.m_sy * Real.cos (b.m_r + b.m_h))) * h2 +
      (-(b.m_sy * Real.sin (b.m_r + b.m_h))) * h1
  have e10 : a.cleanse.m_ly * b.m_sx * Real.sin (a.cleanse.m_qy + b.m_r) =
      a.m_sx * Real.sin a.m_r * (b.m_sx * Real.cos b.m_r) +
        a.m_sy * Real.cos (a.m_r + a.m_h) * (b.m_sx * Real.sin b.m_r) := by
    rw [Real.sin_add]
    linear_combination (b.m_sx * Real.cos b.m_r) * h4 + (b.m_sx * Real.sin b.m_r) * h3
  have e11 : a.cleanse.m_ly * b.m_sy * Real.cos (a.cleanse.m_qy + b.m_r + b.m_h) =
      a.m_sx * Real.sin a.m_r * -(b.m_sy * Real.sin (b.m_r + b.m_h)) +
        a.m_sy * Real.cos (a.m_r + a.m_h) * (b.m_sy * Real.cos (b.m_r + b.m_h)) := by
    rw [show a.cleanse.m_qy + b.m_r + b.m_h = a.cleanse.m_qy + (b.m_r + b.m_h) by ring,
      Real.cos_add]
    linear_combination (b.m_sy * Real.cos (b.m_r + b.m_h)) * h3 -
      (b.m_sy * Real.sin (b.m_r + b.m_h)) * h4
  simp only [lin2.matrix]
  rw [Matrix.mul_fin_two, e00, e01, e10, e11]

/-- Transform constructed by `lin2(shear=1)`. -/
def lin2.tsh : lin2 := ⟨1, 1, 0, 1, true, 0, 0, 0, 0⟩

theorem mk_tsh : mk_lin2 [1, 1] 0 1 = Except.ok lin2.tsh := by
  have hπ := Real.pi_gt_three
  have hrr : radian_range 1 = 1 := radian_range_eq_self (by linarith) (by linarith)
  rw [mk_lin2_ok_iff]
  refine ⟨rfl, by norm_num, by norm_num, ?_, ?_, ?_⟩
  · rw [hrr]
    unfold feq
    rw [not_lt, abs_of_neg (by linarith), neg_sub]
    linarith
  · rw [hrr]
    unfold feq
    rw [not_lt, sub_neg_eq_add, abs_of_pos (by linarith)]
    linarith
  · rw [radian_range_zero, hrr]
    simp [lin2.tsh]

theorem matrix_tsh : lin2.tsh.matrix = !![1, -Real.sin 1; 0, Real.cos 1] := by
  unfold lin2.matrix lin2.tsh
  norm_num

theorem tsh_prod_lit : lin2.tsh.matrix * lin2.tsh.matrix =
    !![1, -(Real.sin 1 * (1 + Real.cos 1)); 0, Real.cos 1 ^ 2] := by
  rw [matrix_tsh, Matrix.mul_fin_two]
  ext i j
  fin_cases i <;> fin_cases j <;>
    simp only [Matrix.cons_val_zero, Matrix.cons_val_one, Matrix.head_cons, Matrix.of_apply,
      Matrix.cons_val', Matrix.head_fin_const, Matrix.empty_val', Matrix.cons_val_fin_one] <;>
    ring

theorem cmul_tsh_entry :
    ∃ u, lin2.tsh.cmul lin2.tsh = Except.ok u ∧
      u.matrix 0 1 = Real.sin 1 * (1 + Real.cos 1) := by
  have hπ := Real.pi_gt_three
  have hs1 := sin_one_lb
  have hc1 := cos_one_lb
  have hs1' := Real.sin_le_one 1
  have hc1' := Real.cos_le_one 1
  have hw_pos : (0:ℝ) < Real.sin 1 * (1 + Real.cos 1) := by nlinarith
  have hw_le : Real.sin 1 * (1 + Real.cos 1) ≤ 2 := by nlinarith
  have hv_lb : (0.16:ℝ) ≤ Real.cos 1 ^ 2 := by nlinarith
  have hv_ub : Real.cos 1 ^ 2 ≤ 1 := by nlinarith
  -- the canonicalization angle of the second column
  have hS_lb : (0.16:ℝ) ≤ hypot (-(Real.sin 1 * (1 + Real.cos 1))) (Real.cos 1 ^ 2) := by
    refine le_trans ?_ (abs_le_hypot_right _ _)
    rw [abs_of_pos (by nlinarith)]
    exact hv_lb
  have hS_ub : hypot (-(Real.sin 1 * (1 + Real.cos 1))) (Real.cos 1 ^ 2) ≤ 3 := by
    refine le_trans (hypot_le_abs_add_abs _ _) ?_
    rw [abs_neg, abs_of_pos hw_pos, abs_of_pos (by nlinarith)]
    linarith
  have hcosv : hypot (Real.cos 1 ^ 2) (-(Real.sin 1 * (1 + Real.cos 1))) *
      Real.cos (atan2 (-(Real.sin 1 * (1 + Real.cos 1))) (Real.cos 1 ^ 2)) =
      Real.cos 1 ^ 2 := hypot_mul_cos _ _
  have hsinv : hypot (Real.cos 1 ^ 2) (-(Real.sin 1 * (1 + Real.cos 1))) *
      Real.sin (atan2 (-(Real.sin 1 * (1 + Real.cos 1))) (Real.cos 1 ^ 2)) =
      -(Real.sin 1 * (1 + Real.cos 1)) := hypot_mul_sin _ _
  have hcomm : hypot (-(Real.sin 1 * (1 + Real.cos 1))) (Real.cos 1 ^ 2) =
      hypot (Real.cos 1 ^ 2) (-(Real.sin 1 * (1 + Real.cos 1))) := hypot_comm _ _
  rw [hcomm] at hS_lb hS_ub
  have hcosφ_lb : (0.05:ℝ) ≤
      Real.cos (atan2 (-(Real.sin 1 * (1 + Real.cos 1))) (Real.cos 1 ^ 2)) := by
    nlinarith
  have habsφ : Real.sin 1e-6 ≤
      |Real.cos (atan2 (-(Real.sin 1 * (1 + Real.cos 1))) (Real.cos 1 ^ 2))| := by
    rw [abs_of_pos (by linarith)]
    have := Real.sin_lt (x := 1e-6) (by norm_num)
    linarith
  obtain ⟨hnf1, hnf2⟩ := not_feq_pm_of_le_abs_cos habsφ
  have hφrange : |atan2 (-(Real.sin 1 * (1 + Real.cos 1))) (Real.cos 1 ^ 2)| < π / 2 := by
    unfold atan2
    refine Complex.abs_arg_lt_pi_div_two_iff.mpr (Or.inl ?_)
    show (0:ℝ) < Real.cos 1 ^ 2
    nlinarith
  have hφ' := abs_lt.mp hφrange
  have hrrφ : radian_range (atan2 (-(Real.sin 1 * (1 + Real.cos 1))) (Real.cos 1 ^ 2)) =
      atan2 (-(Real.sin 1 * (1 + Real.cos 1))) (Real.cos 1 ^ 2) :=
    radian_range_eq_self (by linarith) (by linarith)
  unfold lin2.cmul
  rw [cmul_matrix_eq lin2.tsh (Or.inl rfl), tsh_prod_lit, lin2.from_matrix_lit,
    atan2_zero_of_pos one_pos, radian_range_zero, sub_zero, hypot_one_zero]
  refine ⟨⟨1, hypot (-(Real.sin 1 * (1 + Real.cos 1))) (Real.cos 1 ^ 2), 0,
      atan2 (-(Real.sin 1 * (1 + Real.cos 1))) (Real.cos 1 ^ 2), true, 0, 0, 0, 0⟩,
    mk_lin2_ok_iff.mpr ⟨rfl, ?_, ?_, ?_, ?_, ?_⟩, ?_⟩
  · rw [list_pair_get0]
    norm_num
  · rw [list_pair_get1, hcomm]
    linarith
  · rw [radian_range_idem, hrrφ]
    exact hnf1
  · rw [radian_range_idem, hrrφ]
    exact hnf2
  · rw [list_pair_get0, list_pair_get1, radian_range_zero, radian_range_idem, hrrφ]
  · unfold lin2.matrix
    dsimp only
    rw [show ((1:Fin 2) : Fin 2) = 1 from rfl]
    norm_num [Matrix.cons_val_one, Matrix.head_cons, hcomm]
    rw [hsinv]
    ring

/-- C1 fails on the code (missing sign in `from_matrix`'s shear recovery):
for `a = b = lin2(shear=1)`, the multiplication `a*b` succeeds but the
(0,1) entry of its matrix is `+sin(1)*(1+cos(1))` whereas the true matrix
product has `-sin(1)*(1+cos(1))` there — off by about 2.59, far beyond the
`1e-6` tolerance. -/
theorem C1_cmul_entry_sign_flip :
    mk_lin2 [1, 1] 0 1 = Except.ok lin2.tsh ∧
    ∃ u, lin2.tsh.cmul lin2.tsh = Except.ok u ∧
      u.matrix 0 1 = Real.sin 1 * (1 + Real.cos 1) ∧
      (lin2.tsh.matrix * lin2.tsh.matrix) 0 1 = -(Real.sin 1 * (1 + Real.cos 1)) ∧
      ¬ feq (u.matrix 0 1) ((lin2.tsh.matrix * lin2.tsh.matrix) 0 1) := by
  refine ⟨mk_tsh, ?_⟩
  obtain ⟨u, hu, hentry⟩ := cmul_tsh_entry
  have hprod : (lin2.tsh.matrix * lin2.tsh.matrix) 0 1 =
      -(Real.sin 1 * (1 + Real.cos 1)) := by
    rw [tsh_prod_lit]
    norm_num [Matrix.cons_val_one, Matrix.head_cons]
  refine ⟨u, hu, hentry, hprod, ?_⟩
  rw [hentry, hprod]
  unfold feq
  rw [not_lt, sub_neg_eq_add]
  have h1 := sin_one_lb
  have h2 := cos_one_lb
  rw [abs_of_pos (by nlinarith)]
  nlinarith

/-- Degree-12 Taylor sum of `exp(x*I)` split into real and imaginary parts:
the real part is the cosine polynomial and the imaginary part is the sine
polynomial. -/
theorem exp_taylor_13 (x : ℝ) :
    (∑ m ∈ Finset.range 13, ((x : ℂ) * Complex.I) ^ m / m.factorial) =
      (((1 : ℝ) - x ^ 2 / 2 + x ^ 4 / 24 - x ^ 6 / 720 + x ^ 8 / 40320 - x ^ 10 / 3628800 +
          x ^ 12 / 479001600 : ℝ) : ℂ) +
      ((x - x ^ 3 / 6 + x ^ 5 / 120 - x ^ 7 / 5040 + x ^ 9 / 362880 -
          x ^ 11 / 39916800 : ℝ) : ℂ) * Complex.I := by
  have hI2 : Complex.I ^ 2 = -1 := Complex.I_sq
  have hI3 : Complex.I ^ 3 = -Complex.I := by rw [pow_succ, hI2, neg_one_mul]
  have hI4 : Complex.I ^ 4 = 1 := by rw [pow_succ, hI3, neg_mul, Complex.I_mul_I, neg_neg]
  have hI5 : Complex.I ^ 5 = Complex.I := by rw [pow_succ, hI4, one_mul]
  have hI6 : Complex.I ^ 6 = -1 := by rw [pow_succ, hI5, Complex.I_mul_I]
  have hI7 : Complex.I ^ 7 = -Complex.I := by rw [pow_succ, hI6, neg_one_mul]
  have hI8 : Complex.I ^ 8 = 1 := by rw [pow_succ, hI7, neg_mul, Complex.I_mul_I, neg_neg]
  have hI9 : Complex.I ^ 9 = Complex.I := by rw [pow_succ, hI8, one_mul]
  have hI10 : Complex.I ^ 10 = -1 := by rw [pow_succ, hI9, Complex.I_mul_I]
  have hI11 : Complex.I ^ 11 = -Complex.I := by rw [pow_succ, hI10, neg_one_mul]
  have hI12 : Complex.I ^ 12 = 1 := by rw [pow_succ, hI11, neg_mul, Complex.I_mul_I, neg_neg]
  simp only [Finset.sum_range_succ, Finset.sum_range_zero, mul_pow, pow_zero, pow_one,
    hI2, hI3, hI4, hI5, hI6, hI7, hI8, hI9, hI10, hI11, hI12]
  rw [show Nat.factorial 0 = 1 from rfl, show Nat.factorial 1 = 1 from rfl,
    show Nat.factorial 2 = 2 from rfl, show Nat.factorial 3 = 6 from rfl,
    show Nat.factorial 4 = 24 from rfl, show Nat.factorial 5 = 120 from rfl,
    show Nat.factorial 6 = 720 from rfl, show Nat.factorial 7 = 5040 from rfl,
    show Nat.factorial 8 = 40320 from rfl, show Nat.factorial 9 = 362880 from rfl,
    show Nat.factorial 10 = 3628800 from rfl, show Nat.factorial 11 = 39916800 from rfl,
    show Nat.factorial 12 = 479001600 from rfl]
  push_cast
  ring

/-- Remainder bound for the degree-11 sine polynomial on `|x| ≤ 1`, obtained
from the degree-13 tail bound of the complex exponential series. -/
theorem sin_poly_bound {x : ℝ} (hx : |x| ≤ 1) :
    |Real.sin x - (x - x ^ 3 / 6 + x ^ 5 / 120 - x ^ 7 / 5040 + x ^ 9 / 362880 -
      x ^ 11 / 39916800)| ≤ 2e-10 := by
  have habs : Complex.abs ((x : ℂ) * Complex.I) ≤ 1 := by
    rw [map_mul, Complex.abs_I, mul_one, Complex.abs_ofReal]
    exact hx
  have hbound := Complex.exp_bound habs (n := 13) (by norm_num)
  have hB : Complex.abs ((x : ℂ) * Complex.I) ^ 13 *
      ((Nat.succ 13 : ℝ) * ((Nat.factorial 13 : ℝ) * ((13 : ℕ) : ℝ))⁻¹) ≤ 2e-10 := by
    have h13 : Complex.abs ((x : ℂ) * Complex.I) ^ 13 ≤ 1 :=
      pow_le_one₀ (Complex.abs.nonneg _) habs
    have hC : (0 : ℝ) ≤ (Nat.succ 13 : ℝ) * ((Nat.factorial 13 : ℝ) * ((13 : ℕ) : ℝ))⁻¹ := by
      positivity
    refine le_trans (mul_le_mul_of_nonneg_right h13 hC) ?_
    rw [one_mul, show Nat.factorial 13 = 6227020800 from rfl]
    norm_num
  have him : (Complex.exp ((x : ℂ) * Complex.I) -
      ∑ m ∈ Finset.range 13, ((x : ℂ) * Complex.I) ^ m / m.factorial).im =
      Real.sin x - (x - x ^ 3 / 6 + x ^ 5 / 120 - x ^ 7 / 5040 + x ^ 9 / 362880 -
        x ^ 11 / 39916800) := by
    rw [Complex.sub_im, Complex.exp_ofReal_mul_I_im, exp_taylor_13, Complex.add_im,
      Complex.ofReal_im, Complex.mul_im, Complex.ofReal_re, Complex.ofReal_im,
      Complex.I_re, Complex.I_im]
    ring
  rw [← him]
  exact le_trans (Complex.abs_im_le_abs _) (le_trans hbound hB)

/-- Remainder bound for the degree-12 cosine polynomial on `|x| ≤ 1`, obtained
from the degree-13 tail bound of the complex exponential series. -/
theorem cos_poly_bound {x : ℝ} (hx : |x| ≤ 1) :
    |Real.cos x - ((1 : ℝ) - x ^ 2 / 2 + x ^ 4 / 24 - x ^ 6 / 720 + x ^ 8 / 40320 -
      x ^ 10 / 3628800 + x ^ 12 / 479001600)| ≤ 2e-10 := by
  have habs : Complex.abs ((x : ℂ) * Complex.I) ≤ 1 := by
    rw [map_mul, Complex.abs_I, mul_one, Complex.abs_ofReal]
    exact hx
  have hbound := Complex.exp_bound habs (n := 13) (by norm_num)
  have hB : Complex.abs ((x : ℂ) * Complex.I) ^ 13 *
      ((Nat.succ 13 : ℝ) * ((Nat.factorial 13 : ℝ) * ((13 : ℕ) : ℝ))⁻¹) ≤ 2e-10 := by
    have h13 : Complex.abs ((x : ℂ) * Complex.I) ^ 13 ≤ 1 :=
      pow_le_one₀ (Complex.abs.nonneg _) habs
    have hC : (0 : ℝ) ≤ (Nat.succ 13 : ℝ) * ((Nat.factorial 13 : ℝ) * ((13 : ℕ) : ℝ))⁻¹ := by
      positivity
    refine le_trans (mul_le_mul_of_nonneg_right h13 hC) ?_
    rw [one_mul, show Nat.factorial 13 = 6227020800 from rfl]
    norm_num
  have hre : (Complex.exp ((x : ℂ) * Complex.I) -
      ∑ m ∈ Finset.range 13, ((x : ℂ) * Complex.I) ^ m / m.factorial).re =
      Real.cos x - ((1 : ℝ) - x ^ 2 / 2 + x ^ 4 / 24 - x ^ 6 / 720 + x ^ 8 / 40320 -
        x ^ 10 / 3628800 + x ^ 12 / 479001600) := by
    rw [Complex.sub_re, Complex.exp_ofReal_mul_I_re, exp_taylor_13, Complex.add_re,
      Complex.ofReal_re, Complex.mul_re, Complex.ofReal_re, Complex.ofReal_im,
      Complex.I_re, Complex.I_im]
    ring
  rw [← hre]
  exact le_trans (Complex.abs_re_le_abs _) (le_trans hbound hB)

/-- Decimal bracket `0.84147098 ≤ sin 1 ≤ 0.84147099` from the Taylor bound. -/
theorem sin_one_bounds : (0.84147098 : ℝ) ≤ Real.sin 1 ∧ Real.sin 1 ≤ 0.84147099 := by
  have h := sin_poly_bound (x := 1) (by norm_num)
  rw [abs_le] at h
  have hlo : (0.841470984 : ℝ) ≤
      (1 : ℝ) - 1 ^ 3 / 6 + 1 ^ 5 / 120 - 1 ^ 7 / 5040 + 1 ^ 9 / 362880 - 1 ^ 11 / 39916800 := by
    norm_num
  have hhi : ((1 : ℝ) - 1 ^ 3 / 6 + 1 ^ 5 / 120 - 1 ^ 7 / 5040 + 1 ^ 9 / 362880 -
      1 ^ 11 / 39916800) ≤ 0.841470985 := by norm_num
  exact ⟨by linarith [h.1], by linarith [h.2]⟩

/-- Decimal bracket `0.54030230 ≤ cos 1 ≤ 0.54030231` from the Taylor bound. -/
theorem cos_one_bounds : (0.54030230 : ℝ) ≤ Real.cos 1 ∧ Real.cos 1 ≤ 0.54030231 := by
  have h := cos_poly_bound (x := 1) (by norm_num)
  rw [abs_le] at h
  have hlo : (0.540302305 : ℝ) ≤
      (1 : ℝ) - 1 ^ 2 / 2 + 1 ^ 4 / 24 - 1 ^ 6 / 720 + 1 ^ 8 / 40320 - 1 ^ 10 / 3628800 +
        1 ^ 12 / 479001600 := by norm_num
  have hhi : ((1 : ℝ) - 1 ^ 2 / 2 + 1 ^ 4 / 24 - 1 ^ 6 / 720 + 1 ^ 8 / 40320 - 1 ^ 10 / 3628800 +
      1 ^ 12 / 479001600) ≤ 0.5403023065 := by norm_num
  exact ⟨by linarith [h.1], by linarith [h.2]⟩

/-- Tangent of the cached angle `qx = atan2(sin 1, 1)` equals `sin 1`. -/
theorem tan_qx : Real.tan (atan2 (Real.sin 1) 1) = Real.sin 1 := by
  have hcos := hypot_mul_cos 1 (Real.sin 1)
  have hsin := hypot_mul_sin 1 (Real.sin 1)
  have hLpos : (0 : ℝ) < hypot 1 (Real.sin 1) := by
    have h := abs_le_hypot_left 1 (Real.sin 1)
    rw [abs_one] at h
    linarith
  have hcpos : 0 < Real.cos (atan2 (Real.sin 1) 1) := by
    by_contra hneg
    push_neg at hneg
    nlinarith [mul_nonneg hLpos.le (neg_nonneg.mpr hneg)]
  rw [Real.tan_eq_sin_div_cos, div_eq_iff hcpos.ne']
  apply mul_left_cancel₀ hLpos.ne'
  rw [hsin, show hypot 1 (Real.sin 1) * (Real.sin 1 * Real.cos (atan2 (Real.sin 1) 1)) =
    Real.sin 1 * (hypot 1 (Real.sin 1) * Real.cos (atan2 (Real.sin 1) 1)) from by ring,
    hcos, mul_one]

/-- Membership of `qx = atan2(sin 1, 1)` in the principal open interval of the
tangent, because the second argument of `atan2` is positive. -/
theorem qx_mem : atan2 (Real.sin 1) 1 ∈ Set.Ioo (-(π / 2)) (π / 2) := by
  have h : |atan2 (Real.sin 1) 1| < π / 2 := by
    unfold atan2
    refine Complex.abs_arg_lt_pi_div_two_iff.mpr (Or.inl ?_)
    show (0 : ℝ) < 1
    norm_num
  exact Set.mem_Ioo.mpr (abs_lt.mp h)

/-- Lower decimal bound on `qx = atan2(sin 1, 1)` via tangent monotonicity:
`tan 0.699521 < sin 1 = tan qx`. -/
theorem qx_gt : (0.699521 : ℝ) < atan2 (Real.sin 1) 1 := by
  have hpi := Real.pi_gt_three
  have hmem := qx_mem
  have hmem1 : (0.699521 : ℝ) ∈ Set.Ioo (-(π / 2)) (π / 2) :=
    Set.mem_Ioo.mpr ⟨by linarith, by linarith⟩
  have hsb := sin_poly_bound (x := 0.699521) (by rw [abs_le]; norm_num)
  have hcb := cos_poly_bound (x := 0.699521) (by rw [abs_le]; norm_num)
  rw [abs_le] at hsb hcb
  have hs1 := sin_one_bounds
  have hPs : ((0.699521 : ℝ) - 0.699521 ^ 3 / 6 + 0.699521 ^ 5 / 120 - 0.699521 ^ 7 / 5040 +
      0.699521 ^ 9 / 362880 - 0.699521 ^ 11 / 39916800) ≤ 0.6438512540 := by norm_num
  have hPc : (0.7651506797 : ℝ) ≤ (1 : ℝ) - 0.699521 ^ 2 / 2 + 0.699521 ^ 4 / 24 -
      0.699521 ^ 6 / 720 + 0.699521 ^ 8 / 40320 - 0.699521 ^ 10 / 3628800 +
      0.699521 ^ 12 / 479001600 := by norm_num
  have hsc1 : Real.sin 0.699521 ≤ 0.6438512542 := by linarith [hsb.2]
  have hcc1 : (0.7651506795 : ℝ) ≤ Real.cos 0.699521 := by linarith [hcb.1]
  have hprod : (0.84147098 : ℝ) * 0.7651506795 ≤ Real.sin 1 * Real.cos 0.699521 :=
    mul_le_mul hs1.1 hcc1 (by norm_num) (by linarith [hs1.1])
  have hkey : Real.sin 0.699521 < Real.sin 1 * Real.cos 0.699521 := by
    have hnum : (0.6438512542 : ℝ) < 0.84147098 * 0.7651506795 := by norm_num
    linarith
  have htan : Real.tan 0.699521 < Real.tan (atan2 (Real.sin 1) 1) := by
    rw [tan_qx, Real.tan_eq_sin_div_cos, div_lt_iff (by linarith [hcc1])]
    exact hkey
  exact (Real.strictMonoOn_tan.lt_iff_lt hmem1 hmem).mp htan

/-- Upper decimal bound on `qx = atan2(sin 1, 1)` via tangent monotonicity:
`tan qx = sin 1 < tan 0.699522`. -/
theorem qx_lt : atan2 (Real.sin 1) 1 < 0.699522 := by
  have hpi := Real.pi_gt_three
  have hmem := qx_mem
  have hmem2 : (0.699522 : ℝ) ∈ Set.Ioo (-(π / 2)) (π / 2) :=
    Set.mem_Ioo.mpr ⟨by linarith, by linarith⟩
  have hsb := sin_poly_bound (x := 0.699522) (by rw [abs_le]; norm_num)
  have hcb := cos_poly_bound (x := 0.699522) (by rw [abs_le]; norm_num)
  rw [abs_le] at hsb hcb
  have hs1 := sin_one_bounds
  have hPs : (0.6438520190 : ℝ) ≤ (0.699522 : ℝ) - 0.699522 ^ 3 / 6 + 0.699522 ^ 5 / 120 -
      0.699522 ^ 7 / 5040 + 0.699522 ^ 9 / 362880 - 0.699522 ^ 11 / 39916800 := by norm_num
  have hPcub : ((1 : ℝ) - 0.699522 ^ 2 / 2 + 0.699522 ^ 4 / 24 - 0.699522 ^ 6 / 720 +
      0.699522 ^ 8 / 40320 - 0.699522 ^ 10 / 3628800 + 0.699522 ^ 12 / 479001600) ≤
      0.7651500360 := by norm_num
  have hPclb : (0.7651500359 : ℝ) ≤ (1 : ℝ) - 0.699522 ^ 2 / 2 + 0.699522 ^ 4 / 24 -
      0.699522 ^ 6 / 720 + 0.699522 ^ 8 / 40320 - 0.699522 ^ 10 / 3628800 +
      0.699522 ^ 12 / 479001600 := by norm_num
  have hsc2 : (0.6438520188 : ℝ) ≤ Real.sin 0.699522 := by linarith [hsb.1]
  have hcc2 : Real.cos 0.699522 ≤ 0.7651500362 := by linarith [hcb.2]
  have hcpos : (0 : ℝ) < Real.cos 0.699522 := by linarith [hcb.1]
  have hprod : Real.sin 1 * Real.cos 0.699522 ≤ 0.84147099 * 0.7651500362 :=
    mul_le_mul hs1.2 hcc2 hcpos.le (by norm_num)
  have hkey : Real.sin 1 * Real.cos 0.699522 < Real.sin 0.699522 := by
    have hnum : (0.84147099 : ℝ) * 0.7651500362 < 0.6438520188 := by norm_num
    linarith
  have htan : Real.tan (atan2 (Real.sin 1) 1) < Real.tan 0.699522 := by
    rw [tan_qx, Real.tan_eq_sin_div_cos, lt_div_iff hcpos]
    exact hkey
  exact (Real.strictMonoOn_tan.lt_iff_lt hmem hmem2).mp htan

theorem hypot_nonneg_zero {x : ℝ} (hx : 0 ≤ x) : hypot x 0 = x := by
  unfold hypot
  rw [mul_zero, add_zero, Real.sqrt_mul_self hx]

/-- Evaluation of `cleanse` on the transform `lin2(shear=1)`: the cached
quantities become `lx = hypot(1, sin 1)`, `qx = atan2(sin 1, 1)`,
`ly = cos 1`, `qy = 0`. -/
theorem cleanse_tsh : lin2.tsh.cleanse =
    ⟨1, 1, 0, 1, false, hypot 1 (Real.sin 1), atan2 (Real.sin 1) 1, Real.cos 1, 0⟩ := by
  have hc1 : (0 : ℝ) < Real.cos 1 := lt_of_lt_of_le (by norm_num) cos_one_lb
  unfold lin2.cleanse lin2.tsh
  norm_num [hypot_nonneg_zero hc1.le, atan2_zero_of_pos hc1]

/-- Evaluation of `__invert__` on `lin2(shear=1)`: the first branch is taken
(`-pi/2 < 1 < pi/2`), the inverse scale is `[1, hypot(1, sin 1)/cos 1]`, the
inverse angle is `0` and the inverse shear is `pi - atan2(sin 1, 1)`. -/
theorem invert_tsh : lin2.tsh.invert =
    Except.ok ⟨1, hypot 1 (Real.sin 1) / Real.cos 1, 0,
      π - atan2 (Real.sin 1) 1, true, 0, 0, 0, 0⟩ := by
  have hpi := Real.pi_gt_three
  have hq1 := qx_gt
  have hq2 := qx_lt
  have hc1pos : (0 : ℝ) < Real.cos 1 := lt_of_lt_of_le (by norm_num) cos_one_lb
  have hLpos : (0 : ℝ) < hypot 1 (Real.sin 1) := by
    have h := abs_le_hypot_left 1 (Real.sin 1)
    rw [abs_one] at h
    linarith
  have hcq : Real.cos (atan2 (Real.sin 1) 1) = 1 / hypot 1 (Real.sin 1) := by
    rw [eq_div_iff hLpos.ne', mul_comm]
    exact hypot_mul_cos 1 (Real.sin 1)
  have hsx : (1 / Real.cos (atan2 (Real.sin 1) 1)) / hypot 1 (Real.sin 1) = 1 := by
    rw [hcq, one_div_one_div, div_self hLpos.ne']
  have hsy : (1 / Real.cos (atan2 (Real.sin 1) 1)) / Real.cos 1 =
      hypot 1 (Real.sin 1) / Real.cos 1 := by
    rw [hcq, one_div_one_div]
  have hrr : radian_range (π - atan2 (Real.sin 1) 1) = π - atan2 (Real.sin 1) 1 :=
    radian_range_eq_self (by linarith) (by linarith)
  unfold lin2.invert
  rw [cleanse_tsh]
  dsimp only
  rw [if_pos ⟨by linarith, by linarith⟩, sub_zero, add_zero, neg_zero, radian_range_zero]
  refine mk_lin2_ok_iff.mpr ⟨rfl, ?_, ?_, ?_, ?_, ?_⟩
  · rw [list_pair_get0, hsx]
    norm_num
  · rw [list_pair_get1, hsy]
    exact div_pos hLpos hc1pos
  · rw [radian_range_idem, hrr]
    unfold feq
    rw [not_lt, show π - atan2 (Real.sin 1) 1 - π / 2 = π / 2 - atan2 (Real.sin 1) 1 from
      by ring, abs_of_pos (by linarith)]
    linarith
  · rw [radian_range_idem, hrr]
    unfold feq
    rw [not_lt, sub_neg_eq_add, abs_of_pos (by linarith)]
    linarith
  · rw [list_pair_get0, list_pair_get1, hsx, hsy, radian_range_zero, radian_range_idem, hrr]

/-- C4: inverting the transform constructed with `scale=(1,1)`, `angle=0`,
`shear=1` succeeds and yields a transform whose scale is `[1, s]` with
`|s - 2.41889182| < 1e-6`, whose angle is exactly `0` (the float `-0.0` of
the doctest), and whose shear is within `1e-6` of `2.4420710092412734`. -/
theorem C4_invert_shear_one :
    mk_lin2 [1, 1] 0 1 = Except.ok lin2.tsh ∧
    ∃ b, lin2.tsh.invert = Except.ok b ∧
      b.m_sx = 1 ∧ |b.m_sy - 2.41889182| < 1e-6 ∧
      b.m_r = 0 ∧ |b.m_h - 2.4420710092412734| < 1e-6 := by
  have hc1pos : (0 : ℝ) < Real.cos 1 := lt_of_lt_of_le (by norm_num) cos_one_lb
  have hsb := sin_one_bounds
  have hcb := cos_one_bounds
  have hLlb : (1.3069325 : ℝ) ≤ hypot 1 (Real.sin 1) := by
    have hss : (0.84147098 : ℝ) * 0.84147098 ≤ Real.sin 1 * Real.sin 1 :=
      mul_self_le_mul_self (by norm_num) hsb.1
    rw [show (1.3069325 : ℝ) = Real.sqrt (1.3069325 ^ 2) from
      (Real.sqrt_sq (by norm_num)).symm]
    unfold hypot
    exact Real.sqrt_le_sqrt (by nlinarith [hss])
  have hLub : hypot 1 (Real.sin 1) ≤ 1.3069330 := by
    have hss : Real.sin 1 * Real.sin 1 ≤ 0.84147099 * 0.84147099 :=
      mul_self_le_mul_self (by linarith [hsb.1]) hsb.2
    rw [show (1.3069330 : ℝ) = Real.sqrt (1.3069330 ^ 2) from
      (Real.sqrt_sq (by norm_num)).symm]
    unfold hypot
    exact Real.sqrt_le_sqrt (by nlinarith [hss])
  refine ⟨mk_tsh, ⟨1, hypot 1 (Real.sin 1) / Real.cos 1, 0,
    π - atan2 (Real.sin 1) 1, true, 0, 0, 0, 0⟩, invert_tsh, rfl, ?_, rfl, ?_⟩
  · rw [abs_lt]
    constructor
    · have hdiv_lb : (2.41889082 : ℝ) * Real.cos 1 < hypot 1 (Real.sin 1) := by
        calc (2.41889082 : ℝ) * Real.cos 1 ≤ 2.41889082 * 0.54030231 :=
              mul_le_mul_of_nonneg_left hcb.2 (by norm_num)
          _ < 1.3069325 := by norm_num
          _ ≤ hypot 1 (Real.sin 1) := hLlb
      have h := (lt_div_iff hc1pos).mpr hdiv_lb
      linarith
    · have hdiv_ub : hypot 1 (Real.sin 1) < 2.41889282 * Real.cos 1 := by
        calc hypot 1 (Real.sin 1) ≤ 1.3069330 := hLub
          _ < 2.41889282 * 0.54030230 := by norm_num
          _ ≤ 2.41889282 * Real.cos 1 :=
              mul_le_mul_of_nonneg_left hcb.1 (by norm_num)
      have h := (div_lt_iff hc1pos).mpr hdiv_ub
      linarith
  · rw [abs_lt]
    have hq1 := qx_gt
    have hq2 := qx_lt
    have hpl := Real.pi_gt_d20
    have hpu := Real.pi_lt_d20
    constructor
    · linarith
    · linarith
